import Mathlib

/-!
Shallow embedding of the Huffman coder in `src/huffman.rs` and verification of
its specified properties.

Modelling choices, recorded once here:

* Rust's `HashMap<S, u64>` frequency table is modelled as an association list
  with distinct keys, built by `bumpCount` in first-occurrence order
  (`HashMap` iteration order is unspecified in Rust; every claim proved below
  is insensitive to that order, and the heap model below makes the remaining
  tie-breaks explicit).
* Rust's `BinaryHeap` with the inverted `Ord` on `HuffmanTree` (compare by
  frequency only, ties `Equal`) acts as a min-heap whose pop order on ties is
  unspecified; it is modelled as a list with `popMin` removing the first
  element of minimal frequency.  The spec-side relation `SpecBuild` quantifies
  over all tie-breaks.
* `BitVec` bit sequences are `List Bool`; `BitVec::to_bytes` /
  `BitVec::from_bytes` (most-significant bit first, final byte zero-padded)
  are `bitsToBytes` / `bytesToBits` over `List Nat` bytes.
* The `panic!` branches of `encode` / `make_key` are modelled as `none`
  results, so "encode runs to completion" is `encode content = some _`.
* The unbounded `loop` of `decode` is modelled by `decodeLoop` with explicit
  fuel; `decode` passes fuel `bits.length + 1`, which is reached only if some
  loop iteration consumes no bit, i.e. only when the root of the key is a bare
  `Symbol` leaf — exactly the case in which the Rust loop never terminates.
  The outer `none` of `decodeLoop` marks fuel exhaustion (divergence).
* The iterative accumulation of decoded symbols (`out.push(s)`) is written as
  direct recursion producing the same list.
-/

namespace Huffman

/-- Coding tree: `HuffmanKey<S>` from the source. -/
inductive HuffmanKey (α : Type) where
  | EndOfInput : HuffmanKey α
  | Symbol : α → HuffmanKey α
  | Branch : HuffmanKey α → HuffmanKey α → HuffmanKey α
deriving DecidableEq, Repr

/-- Frequency-annotated construction-time tree: `HuffmanTree<S>` from the source. -/
inductive HuffmanTree (α : Type) where
  | Leaf : Nat → α → HuffmanTree α
  | Branch : Nat → HuffmanTree α → HuffmanTree α → HuffmanTree α
deriving DecidableEq, Repr

variable {α : Type}

/-- The `frequency` helper from the source. -/
def frequency : HuffmanTree α → Nat
  | .Leaf f _ => f
  | .Branch f _ _ => f

/-- One `*symbol_counts.entry(*symbol).or_insert(0) += 1` step of
`symbol_frequency`, on the association-list model of the `HashMap`. -/
def bumpCount [DecidableEq α] (s : α) : List (α × Nat) → List (α × Nat)
  | [] => [(s, 1)]
  | (t, n) :: rest => if t = s then (t, n + 1) :: rest else (t, n) :: bumpCount s rest

/-- The `symbol_frequency` function from the source. -/
def symbol_frequency [DecidableEq α] (content : List α) : List (α × Nat) :=
  content.foldl (fun m s => bumpCount s m) []

/-- One `priority_queue.pop()` on the list model of the `BinaryHeap`:
remove the first element of minimal `frequency` (the source's heap order
compares by frequency only, inverted for the max-heap). -/
def popMin : List (HuffmanTree α) → Option (HuffmanTree α × List (HuffmanTree α))
  | [] => none
  | t :: ts =>
    match popMin ts with
    | none => some (t, [])
    | some (m, rest) =>
      if frequency t ≤ frequency m then some (t, ts) else some (m, t :: rest)

theorem popMin_eq_none_iff (q : List (HuffmanTree α)) : popMin q = none ↔ q = [] := by
  cases q with
  | nil => simp [popMin]
  | cons t ts =>
    constructor
    · intro h
      exfalso
      cases hts : popMin ts with
      | none =>
        simp only [popMin, hts] at h
        exact Option.noConfusion h
      | some p =>
        obtain ⟨m, rest⟩ := p
        simp only [popMin, hts] at h
        split at h <;> exact Option.noConfusion h
    · intro h
      exact absurd h (by simp)

theorem popMin_length (q : List (HuffmanTree α)) (a : HuffmanTree α)
    (rest : List (HuffmanTree α)) (h : popMin q = some (a, rest)) :
    rest.length + 1 = q.length := by
  induction q generalizing a rest with
  | nil => simp [popMin] at h
  | cons t ts ih =>
    cases hts : popMin ts with
    | none =>
      simp only [popMin, hts] at h
      obtain ⟨rfl, rfl⟩ := h
      have hnil : ts = [] := (popMin_eq_none_iff ts).1 hts
      subst hnil
      rfl
    | some p =>
      obtain ⟨m, rest2⟩ := p
      simp only [popMin, hts] at h
      split at h
      · obtain ⟨rfl, rfl⟩ := h
        rfl
      · obtain ⟨rfl, rfl⟩ := h
        have hlen := ih _ _ hts
        simp only [List.length_cons]
        omega

/-- The branch construction inside `make_key`'s loop: the node with strictly
smaller frequency becomes the left child. -/
def mergeTrees (a b : HuffmanTree α) : HuffmanTree α :=
  if frequency a < frequency b then .Branch (frequency a + frequency b) a b
  else .Branch (frequency a + frequency b) b a

/-- The `loop` of `make_key`: pop two nodes, merge, push back; `none` models
the `panic!("Empty priority queue")` branch. -/
def buildTree (q : List (HuffmanTree α)) : Option (HuffmanTree α) :=
  match h1 : popMin q with
  | none => none
  | some (a, q1) =>
    match h2 : popMin q1 with
    | none => some a
    | some (b, q2) => buildTree (mergeTrees a b :: q2)
termination_by q.length
decreasing_by
  have e1 := popMin_length _ _ _ h1
  have e2 := popMin_length _ _ _ h2
  simp only [List.length_cons]
  omega

/-- The `tree_to_key` function from the source. -/
def tree_to_key : HuffmanTree (Option α) → HuffmanKey α
  | .Leaf _ none => .EndOfInput
  | .Leaf _ (some s) => .Symbol s
  | .Branch _ l r => .Branch (tree_to_key l) (tree_to_key r)

/-- The initial priority-queue contents in `make_key`: one leaf per frequency
table entry, plus the end-of-input leaf of frequency 0. -/
def initQueue [DecidableEq α] (content : List α) : List (HuffmanTree (Option α)) :=
  (symbol_frequency content).map (fun p => .Leaf p.2 (some p.1)) ++ [.Leaf 0 none]

/-- The `make_key` function from the source. -/
def make_key [DecidableEq α] (content : List α) : Option (HuffmanKey α) :=
  (buildTree (initQueue content)).map tree_to_key

/-- Bits of one byte, most significant first (`bit_vec`'s byte layout). -/
def byteToBits (b : Nat) : List Bool :=
  [b.testBit 7, b.testBit 6, b.testBit 5, b.testBit 4,
   b.testBit 3, b.testBit 2, b.testBit 1, b.testBit 0]

/-- Pack a list of (at most 8) bits into one byte, most significant first. -/
def bitsToByte (bs : List Bool) : Nat :=
  bs.foldl (fun acc b => 2 * acc + (if b then 1 else 0)) 0

/-- `BitVec::to_bytes`: pack bits into bytes, eight at a time, zero-padding the
final partial byte. -/
def bitsToBytes : List Bool → List Nat
  | [] => []
  | b1 :: b2 :: b3 :: b4 :: b5 :: b6 :: b7 :: b8 :: rest =>
    bitsToByte [b1, b2, b3, b4, b5, b6, b7, b8] :: bitsToBytes rest
  | bs => [bitsToByte (bs ++ List.replicate (8 - bs.length) false)]

/-- `BitVec::from_bytes`: each byte contributes its 8 bits, most significant
first. -/
def bytesToBits (bytes : List Nat) : List Bool :=
  (bytes.map byteToBits).flatten

/-- Result of `decode_symbol` (the `DecodedSymbol` enum from the source). -/
inductive DecodedSymbol (α : Type) where
  | NotEnoughBits : DecodedSymbol α
  | EndOfInput : DecodedSymbol α
  | Symbol : α → DecodedSymbol α
deriving DecidableEq, Repr

/-- The `decode_symbol` function from the source; the mutable bit iterator is
modelled by returning the remaining bits. -/
def decode_symbol : HuffmanKey α → List Bool → DecodedSymbol α × List Bool
  | .EndOfInput, bits => (.EndOfInput, bits)
  | .Symbol s, bits => (.Symbol s, bits)
  | .Branch _ _, [] => (.NotEnoughBits, [])
  | .Branch l r, b :: bits => decode_symbol (if b then r else l) bits

/-- The `loop` of `decode`, with explicit fuel; the outer `none` marks fuel
exhaustion (the Rust loop diverging). -/
def decodeLoop : Nat → HuffmanKey α → List Bool → Option (Option (List α))
  | 0, _, _ => none
  | fuel + 1, key, bits =>
    match decode_symbol key bits with
    | (.NotEnoughBits, _) => some none
    | (.EndOfInput, _) => some (some [])
    | (.Symbol s, rest) =>
      Option.map (Option.map (fun out => s :: out)) (decodeLoop fuel key rest)

/-- The `decode` function from the source.  Fuel `bits.length + 1` covers every
terminating run of the Rust loop: each iteration except the last consumes at
least one bit unless the root is a bare `Symbol` leaf, in which case the Rust
loop never terminates and `decodeLoop` exhausts its fuel. -/
def decode (key : HuffmanKey α) (encoded : List Nat) : Option (List α) :=
  Option.join (decodeLoop ((bytesToBits encoded).length + 1) key (bytesToBits encoded))

/-- Remove every entry with the given key (the overwrite part of
`HashMap::insert`). -/
def removeKey [DecidableEq α] (k : Option α) :
    List (Option α × List Bool) → List (Option α × List Bool)
  | [] => []
  | (k2, v) :: rest =>
    if k2 = k then removeKey k rest else (k2, v) :: removeKey k rest

/-- `HashMap::insert` on the association-list model. -/
def insertKV [DecidableEq α] (k : Option α) (v : List Bool)
    (m : List (Option α × List Bool)) : List (Option α × List Bool) :=
  (k, v) :: removeKey k m

/-- `HashMap::get` on the association-list model. -/
def lookupKV [DecidableEq α] (k : Option α) :
    List (Option α × List Bool) → Option (List Bool)
  | [] => none
  | (k2, v) :: rest => if k2 = k then some v else lookupKV k rest

/-- Size measure for `encodeKeyLoop` termination. -/
def keyWeight : HuffmanKey α → Nat
  | .EndOfInput => 1
  | .Symbol _ => 1
  | .Branch l r => keyWeight l + keyWeight r + 1

/-- The `while let Some(..) = stack.pop()` loop of `make_encode_key`; the head
of the list is the top of the stack (left child pushed first, right child
popped first, as in the source). -/
def encodeKeyLoop [DecidableEq α] :
    List (List Bool × HuffmanKey α) → List (Option α × List Bool) →
      List (Option α × List Bool)
  | [], m => m
  | (bits, .EndOfInput) :: stack, m => encodeKeyLoop stack (insertKV none bits m)
  | (bits, .Symbol s) :: stack, m => encodeKeyLoop stack (insertKV (some s) bits m)
  | (bits, .Branch l r) :: stack, m =>
    encodeKeyLoop ((bits ++ [true], r) :: (bits ++ [false], l) :: stack) m
termination_by stack _ => (stack.map (fun e => keyWeight e.2)).sum
decreasing_by
  all_goals simp only [List.map_cons, List.sum_cons, keyWeight]
  all_goals omega

/-- The `make_encode_key` function from the source. -/
def make_encode_key [DecidableEq α] (key : HuffmanKey α) :
    List (Option α × List Bool) :=
  encodeKeyLoop [([], key)] []

/-- The symbol-encoding `for` loop of `encode`: concatenate the code of each
symbol; `none` models the `panic!("Unexpected: Symbol not in the encode_key!")`
branch. -/
def encodeSymbols [DecidableEq α] (table : List (Option α × List Bool)) :
    List α → Option (List Bool)
  | [] => some []
  | s :: rest =>
    match lookupKV (some s) table with
    | none => none
    | some p => Option.map (fun bs => p ++ bs) (encodeSymbols table rest)

/-- The bit-level part of `encode`: the coding tree together with all emitted
bits (symbol codes in input order followed by the end-of-input code), before
byte packing. -/
def encodeBits [DecidableEq α] (content : List α) :
    Option (HuffmanKey α × List Bool) :=
  (make_key content).bind fun key =>
    (encodeSymbols (make_encode_key key) content).bind fun sb =>
      (lookupKV none (make_encode_key key)).map fun pe => (key, sb ++ pe)

/-- The `encode` function from the source. -/
def encode [DecidableEq α] (content : List α) :
    Option (HuffmanKey α × List Nat) :=
  Option.map (fun p => (p.1, bitsToBytes p.2)) (encodeBits content)

/-- Follow a bit path from a node: descend left on `false`, right on `true`;
`none` when a terminal is reached with bits still unconsumed. -/
def follow : HuffmanKey α → List Bool → Option (HuffmanKey α)
  | k, [] => some k
  | .Branch l r, b :: p => follow (if b then r else l) p
  | .EndOfInput, _ :: _ => none
  | .Symbol _, _ :: _ => none

/-- Terminal keys (leaf labels) of a coding tree, left to right: `none` for the
end-of-input terminal, `some s` for a `Symbol s` terminal. -/
def keySyms : HuffmanKey α → List (Option α)
  | .EndOfInput => [none]
  | .Symbol s => [some s]
  | .Branch l r => keySyms l ++ keySyms r

/-- The terminal node a code-table key stands for. -/
def terminalOf : Option α → HuffmanKey α
  | none => .EndOfInput
  | some s => .Symbol s

/-- Leaf labels of a construction-time tree, left to right. -/
def treeSyms : HuffmanTree (Option α) → List (Option α)
  | .Leaf _ s => [s]
  | .Branch _ l r => treeSyms l ++ treeSyms r

/-- Root of the key is a bare `Symbol` leaf (the only shape on which the
`decode` loop of the source diverges). -/
def rootIsSymbol : HuffmanKey α → Bool
  | .Symbol _ => true
  | _ => false

theorem decode_symbol_eoi_eq (bits : List Bool) :
    decode_symbol (.EndOfInput : HuffmanKey α) bits = (.EndOfInput, bits) := by
  cases bits <;> rfl

theorem decode_symbol_sym_eq (s : α) (bits : List Bool) :
    decode_symbol (.Symbol s) bits = (.Symbol s, bits) := by
  cases bits <;> rfl

theorem byteToBits_bitsToByte8 : ∀ b1 b2 b3 b4 b5 b6 b7 b8 : Bool,
    byteToBits (bitsToByte [b1, b2, b3, b4, b5, b6, b7, b8]) =
      [b1, b2, b3, b4, b5, b6, b7, b8] := by decide

theorem byteToBits_bitsToByte (l : List Bool) (h : l.length = 8) :
    byteToBits (bitsToByte l) = l := by
  rcases l with _ | ⟨b1, l⟩
  · simp at h
  rcases l with _ | ⟨b2, l⟩
  · simp at h
  rcases l with _ | ⟨b3, l⟩
  · simp at h
  rcases l with _ | ⟨b4, l⟩
  · simp at h
  rcases l with _ | ⟨b5, l⟩
  · simp at h
  rcases l with _ | ⟨b6, l⟩
  · simp at h
  rcases l with _ | ⟨b7, l⟩
  · simp at h
  rcases l with _ | ⟨b8, l⟩
  · simp at h
  rcases l with _ | ⟨b9, l⟩
  · exact byteToBits_bitsToByte8 b1 b2 b3 b4 b5 b6 b7 b8
  · simp only [List.length_cons, List.length_nil] at h
    omega

theorem length_lt_eight_of_no_chunk (bs : List Bool)
    (h8 : ∀ (b1 b2 b3 b4 b5 b6 b7 b8 : Bool) (rest : List Bool),
      bs = b1 :: b2 :: b3 :: b4 :: b5 :: b6 :: b7 :: b8 :: rest → False) :
    bs.length < 8 := by
  by_contra hlen
  push_neg at hlen
  rcases bs with _ | ⟨b1, bs⟩
  · simp at hlen
  rcases bs with _ | ⟨b2, bs⟩
  · simp only [List.length_cons, List.length_nil] at hlen; omega
  rcases bs with _ | ⟨b3, bs⟩
  · simp only [List.length_cons, List.length_nil] at hlen; omega
  rcases bs with _ | ⟨b4, bs⟩
  · simp only [List.length_cons, List.length_nil] at hlen; omega
  rcases bs with _ | ⟨b5, bs⟩
  · simp only [List.length_cons, List.length_nil] at hlen; omega
  rcases bs with _ | ⟨b6, bs⟩
  · simp only [List.length_cons, List.length_nil] at hlen; omega
  rcases bs with _ | ⟨b7, bs⟩
  · simp only [List.length_cons, List.length_nil] at hlen; omega
  rcases bs with _ | ⟨b8, bs⟩
  · simp only [List.length_cons, List.length_nil] at hlen; omega
  exact h8 b1 b2 b3 b4 b5 b6 b7 b8 bs rfl

theorem bytesToBits_nil : bytesToBits [] = [] := rfl

theorem bytesToBits_cons (b : Nat) (bs : List Nat) :
    bytesToBits (b :: bs) = byteToBits b ++ bytesToBits bs := by
  simp [bytesToBits]

theorem bytesToBits_append (xs ys : List Nat) :
    bytesToBits (xs ++ ys) = bytesToBits xs ++ bytesToBits ys := by
  simp [bytesToBits]

theorem byteToBits_length (b : Nat) : (byteToBits b).length = 8 := rfl

theorem bytesToBits_length (bs : List Nat) : (bytesToBits bs).length = 8 * bs.length := by
  induction bs with
  | nil => rfl
  | cons b bs ih =>
    rw [bytesToBits_cons, List.length_append, ih, byteToBits_length, List.length_cons]
    ring

/-- Unpacking the packed bytes recovers the original bits followed by the
zero padding of the final partial byte. -/
theorem bytesToBits_bitsToBytes (bs : List Bool) :
    ∃ k, k < 8 ∧ bytesToBits (bitsToBytes bs) = bs ++ List.replicate k false ∧
      8 * (bitsToBytes bs).length = bs.length + k := by
  induction bs using bitsToBytes.induct with
  | case1 => exact ⟨0, by norm_num, by simp [bitsToBytes, bytesToBits], by simp [bitsToBytes]⟩
  | case2 b1 b2 b3 b4 b5 b6 b7 b8 rest ih =>
    obtain ⟨k, hk, heq, hlen⟩ := ih
    refine ⟨k, hk, ?_, ?_⟩
    · rw [show bitsToBytes (b1 :: b2 :: b3 :: b4 :: b5 :: b6 :: b7 :: b8 :: rest) =
          bitsToByte [b1, b2, b3, b4, b5, b6, b7, b8] :: bitsToBytes rest from rfl,
        bytesToBits_cons, byteToBits_bitsToByte8, heq]
      simp
    · rw [show bitsToBytes (b1 :: b2 :: b3 :: b4 :: b5 :: b6 :: b7 :: b8 :: rest) =
          bitsToByte [b1, b2, b3, b4, b5, b6, b7, b8] :: bitsToBytes rest from rfl]
      simp only [List.length_cons]
      omega
  | case3 bs hnil h8 =>
    have hlt : bs.length < 8 := length_lt_eight_of_no_chunk bs h8
    have hne : bs ≠ [] := fun h => hnil h
    have heq : bitsToBytes bs = [bitsToByte (bs ++ List.replicate (8 - bs.length) false)] := by
      rcases bs with _ | ⟨b, bs⟩
      · exact absurd rfl hne
      · rw [bitsToBytes.eq_def]
        split
        · rename_i hx
          exact absurd hx (by simp)
        · rename_i b1 b2 b3 b4 b5 b6 b7 b8 rest heq2
          exact absurd heq2 (fun h => h8 b1 b2 b3 b4 b5 b6 b7 b8 rest h)
        · rfl
    have hpos : 0 < bs.length := List.length_pos.mpr hne
    refine ⟨8 - bs.length, by omega, ?_, ?_⟩
    · rw [heq, bytesToBits_cons, bytesToBits_nil, List.append_nil,
        byteToBits_bitsToByte _ (by simp [List.length_append, List.length_replicate]; omega)]
    · rw [heq]
      simp only [List.length_cons, List.length_nil]
      omega

theorem follow_nil (k : HuffmanKey α) : follow k [] = some k := by
  cases k <;> rfl

theorem follow_append (k : HuffmanKey α) (p q : List Bool) :
    follow k (p ++ q) = (follow k p).bind (fun t => follow t q) := by
  induction p generalizing k with
  | nil => simp [follow]
  | cons b p ih =>
    cases k with
    | EndOfInput => simp [follow]
    | Symbol s => simp [follow]
    | Branch l r => simp [follow, ih]

theorem decode_symbol_follow_eoi (k : HuffmanKey α) (p rest : List Bool)
    (h : follow k p = some .EndOfInput) :
    decode_symbol k (p ++ rest) = (.EndOfInput, rest) := by
  induction p generalizing k with
  | nil =>
    simp only [follow, Option.some_inj] at h
    subst h
    exact decode_symbol_eoi_eq rest
  | cons b p ih =>
    cases k with
    | EndOfInput => exact absurd h (by simp [follow])
    | Symbol s => exact absurd h (by simp [follow])
    | Branch l r =>
      simp only [follow] at h
      exact ih _ h

theorem decode_symbol_follow_symbol (k : HuffmanKey α) (p rest : List Bool) (s : α)
    (h : follow k p = some (.Symbol s)) :
    decode_symbol k (p ++ rest) = (.Symbol s, rest) := by
  induction p generalizing k with
  | nil =>
    simp only [follow, Option.some_inj] at h
    subst h
    exact decode_symbol_sym_eq s rest
  | cons b p ih =>
    cases k with
    | EndOfInput => exact absurd h (by simp [follow])
    | Symbol s2 => exact absurd h (by simp [follow])
    | Branch l r =>
      simp only [follow] at h
      exact ih _ h

theorem decode_symbol_follow_branch (k : HuffmanKey α) (bits : List Bool)
    (l r : HuffmanKey α) (h : follow k bits = some (.Branch l r)) :
    decode_symbol k bits = (.NotEnoughBits, []) := by
  induction bits generalizing k with
  | nil =>
    simp only [follow, Option.some_inj] at h
    subst h
    rfl
  | cons b p ih =>
    cases k with
    | EndOfInput => exact absurd h (by simp [follow])
    | Symbol s => exact absurd h (by simp [follow])
    | Branch l2 r2 =>
      simp only [follow] at h
      exact ih _ h

theorem decode_symbol_eoi_inv (k : HuffmanKey α) (bits rest : List Bool)
    (h : decode_symbol k bits = (.EndOfInput, rest)) :
    ∃ p, bits = p ++ rest ∧ follow k p = some .EndOfInput := by
  induction bits generalizing k with
  | nil =>
    cases k with
    | EndOfInput =>
      rw [decode_symbol_eoi_eq] at h
      injection h with h1 h2
      subst h2
      exact ⟨[], rfl, rfl⟩
    | Symbol s => rw [decode_symbol_sym_eq] at h; injection h with h1 h2; exact absurd h1 (by simp)
    | Branch l r => simp [decode_symbol] at h
  | cons b bs ih =>
    cases k with
    | EndOfInput =>
      rw [decode_symbol_eoi_eq] at h
      injection h with h1 h2
      subst h2
      exact ⟨[], rfl, rfl⟩
    | Symbol s => rw [decode_symbol_sym_eq] at h; injection h with h1 h2; exact absurd h1 (by simp)
    | Branch l r =>
      simp only [decode_symbol] at h
      obtain ⟨p, hp, hf⟩ := ih _ h
      exact ⟨b :: p, by simp [hp], by simpa [follow] using hf⟩

theorem decode_symbol_symbol_inv (k : HuffmanKey α) (bits rest : List Bool) (s : α)
    (h : decode_symbol k bits = (.Symbol s, rest)) :
    ∃ p, bits = p ++ rest ∧ follow k p = some (.Symbol s) := by
  induction bits generalizing k with
  | nil =>
    cases k with
    | EndOfInput => rw [decode_symbol_eoi_eq] at h; injection h with h1 h2; exact absurd h1 (by simp)
    | Symbol s2 =>
      rw [decode_symbol_sym_eq] at h
      injection h with h1 h2
      subst h2
      obtain rfl : s2 = s := by injection h1
      exact ⟨[], rfl, rfl⟩
    | Branch l r => simp [decode_symbol] at h
  | cons b bs ih =>
    cases k with
    | EndOfInput => rw [decode_symbol_eoi_eq] at h; injection h with h1 h2; exact absurd h1 (by simp)
    | Symbol s2 =>
      rw [decode_symbol_sym_eq] at h
      injection h with h1 h2
      subst h2
      obtain rfl : s2 = s := by injection h1
      exact ⟨[], rfl, rfl⟩
    | Branch l r =>
      simp only [decode_symbol] at h
      obtain ⟨p, hp, hf⟩ := ih _ h
      exact ⟨b :: p, by simp [hp], by simpa [follow] using hf⟩

theorem decode_symbol_neb_inv (k : HuffmanKey α) (bits rest : List Bool)
    (h : decode_symbol k bits = (.NotEnoughBits, rest)) :
    rest = [] ∧ ∃ l r, follow k bits = some (.Branch l r) := by
  induction bits generalizing k with
  | nil =>
    cases k with
    | EndOfInput => rw [decode_symbol_eoi_eq] at h; injection h with h1 h2; exact absurd h1 (by simp)
    | Symbol s => rw [decode_symbol_sym_eq] at h; injection h with h1 h2; exact absurd h1 (by simp)
    | Branch l r =>
      refine ⟨?_, l, r, rfl⟩
      have h2 : ((DecodedSymbol.NotEnoughBits : DecodedSymbol α), ([] : List Bool)) =
          (.NotEnoughBits, rest) := h
      injection h2 with h1 h3
      exact h3.symm
  | cons b bs ih =>
    cases k with
    | EndOfInput => rw [decode_symbol_eoi_eq] at h; injection h with h1 h2; exact absurd h1 (by simp)
    | Symbol s => rw [decode_symbol_sym_eq] at h; injection h with h1 h2; exact absurd h1 (by simp)
    | Branch l r =>
      simp only [decode_symbol] at h
      obtain ⟨hrest, l2, r2, hf⟩ := ih _ h
      exact ⟨hrest, l2, r2, by simpa [follow] using hf⟩

theorem decode_symbol_rest_le (k : HuffmanKey α) (bits : List Bool) :
    (decode_symbol k bits).2.length ≤ bits.length := by
  induction bits generalizing k with
  | nil => cases k <;> simp [decode_symbol]
  | cons b bs ih =>
    cases k with
    | EndOfInput => rw [decode_symbol_eoi_eq]
    | Symbol s => rw [decode_symbol_sym_eq]
    | Branch l r =>
      simp only [decode_symbol]
      exact le_trans (ih _) (by simp)

theorem decode_symbol_symbol_lt (k : HuffmanKey α) (bits rest : List Bool) (s : α)
    (hroot : rootIsSymbol k = false)
    (h : decode_symbol k bits = (.Symbol s, rest)) :
    rest.length < bits.length := by
  cases k with
  | EndOfInput => rw [decode_symbol_eoi_eq] at h; injection h with h1 h2; exact absurd h1 (by simp)
  | Symbol s2 => simp [rootIsSymbol] at hroot
  | Branch l r =>
    cases bits with
    | nil => simp [decode_symbol] at h
    | cons b bs =>
      simp only [decode_symbol] at h
      have hle : rest.length ≤ bs.length := by
        have h2 := decode_symbol_rest_le (if b then r else l) bs
        rw [h] at h2
        exact h2
      simp only [List.length_cons]
      omega

theorem decodeLoop_mono (fuel fuel2 : Nat) (k : HuffmanKey α) (bits : List Bool)
    (r : Option (List α)) (h : decodeLoop fuel k bits = some r) (hle : fuel ≤ fuel2) :
    decodeLoop fuel2 k bits = some r := by
  induction fuel generalizing fuel2 bits r with
  | zero => simp [decodeLoop] at h
  | succ f ih =>
    cases fuel2 with
    | zero => omega
    | succ f2 =>
      simp only [decodeLoop] at h ⊢
      cases hds : decode_symbol k bits with
      | mk d rest =>
        rw [hds] at h
        cases d with
        | NotEnoughBits => exact h
        | EndOfInput => exact h
        | Symbol s =>
          have h2 : Option.map (Option.map (fun out => s :: out)) (decodeLoop f k rest) =
              some r := h
          show Option.map (Option.map (fun out => s :: out)) (decodeLoop f2 k rest) = some r
          cases hl : decodeLoop f k rest with
          | none => rw [hl] at h2; simp at h2
          | some r2 =>
            rw [hl] at h2
            rw [ih f2 rest r2 hl (by omega)]
            exact h2

theorem decodeLoop_symbol_root (fuel : Nat) (s : α) (bits : List Bool) :
    decodeLoop fuel (.Symbol s) bits = none := by
  induction fuel generalizing bits with
  | zero => rfl
  | succ f ih => simp [decodeLoop, decode_symbol_sym_eq, ih]

theorem decodeLoop_total (fuel : Nat) (k : HuffmanKey α) (bits : List Bool)
    (hroot : rootIsSymbol k = false) (hfuel : bits.length + 1 ≤ fuel) :
    ∃ r, decodeLoop fuel k bits = some r := by
  induction fuel generalizing bits with
  | zero => omega
  | succ f ih =>
    simp only [decodeLoop]
    cases hds : decode_symbol k bits with
    | mk d rest =>
      cases d with
      | NotEnoughBits => exact ⟨none, rfl⟩
      | EndOfInput => exact ⟨some [], rfl⟩
      | Symbol s =>
        have hlt := decode_symbol_symbol_lt k bits rest s hroot hds
        obtain ⟨r, hr⟩ := ih rest (by omega)
        refine ⟨Option.map (fun out => s :: out) r, ?_⟩
        show Option.map (Option.map (fun out => s :: out)) (decodeLoop f k rest) = _
        rw [hr]
        rfl

theorem decodeLoop_out_le (fuel : Nat) (k : HuffmanKey α) (bits : List Bool)
    (out : List α) (hroot : rootIsSymbol k = false)
    (h : decodeLoop fuel k bits = some (some out)) :
    out.length ≤ bits.length := by
  induction fuel generalizing bits out with
  | zero => simp [decodeLoop] at h
  | succ f ih =>
    simp only [decodeLoop] at h
    cases hds : decode_symbol k bits with
    | mk d rest =>
      rw [hds] at h
      cases d with
      | NotEnoughBits =>
        have h2 : some (none : Option (List α)) = some (some out) := h
        simp at h2
      | EndOfInput =>
        have h2 : some (some ([] : List α)) = some (some out) := h
        obtain rfl : ([] : List α) = out := by simpa using h2
        simp
      | Symbol s =>
        have h2 : Option.map (Option.map (fun o => s :: o)) (decodeLoop f k rest) =
            some (some out) := h
        cases hl : decodeLoop f k rest with
        | none => rw [hl] at h2; simp at h2
        | some r2 =>
          rw [hl] at h2
          cases r2 with
          | none => simp at h2
          | some out2 =>
            obtain rfl : s :: out2 = out := by simpa using h2
            have hlt := decode_symbol_symbol_lt k bits rest s hroot hds
            have hlen := ih rest out2 hl
            simp only [List.length_cons]
            omega

theorem lookupKV_removeKey [DecidableEq α] (q k : Option α)
    (m : List (Option α × List Bool)) :
    lookupKV q (removeKey k m) = if q = k then none else lookupKV q m := by
  induction m with
  | nil => simp [removeKey, lookupKV]
  | cons e m ih =>
    obtain ⟨a, v⟩ := e
    by_cases hak : a = k
    · subst hak
      by_cases hq : q = a
      · subst hq
        simp [removeKey, ih]
      · have haq : ¬(a = q) := fun h => hq h.symm
        simp [removeKey, lookupKV, ih, hq, haq]
    · simp only [removeKey, if_neg hak, lookupKV, ih]
      by_cases haq : a = q
      · subst haq
        simp [hak]
      · simp [haq]

theorem lookupKV_insertKV [DecidableEq α] (q k : Option α) (v : List Bool)
    (m : List (Option α × List Bool)) :
    lookupKV q (insertKV k v m) = if q = k then some v else lookupKV q m := by
  simp only [insertKV, lookupKV]
  by_cases h : k = q
  · subst h
    simp [lookupKV_removeKey]
  · have h2 : ¬(q = k) := fun hh => h hh.symm
    simp [h, h2, lookupKV_removeKey]

theorem encodeKeyLoop_lookup_valid [DecidableEq α] (root : HuffmanKey α) :
    ∀ (stack : List (List Bool × HuffmanKey α)) (m : List (Option α × List Bool)),
      (∀ e ∈ stack, follow root e.1 = some e.2) →
      (∀ q p, lookupKV q m = some p → follow root p = some (terminalOf q)) →
      ∀ q p, lookupKV q (encodeKeyLoop stack m) = some p →
        follow root p = some (terminalOf q) := by
  intro stack m
  induction stack, m using encodeKeyLoop.induct with
  | case1 m =>
    intro _ hm
    simpa only [encodeKeyLoop] using hm
  | case2 bits stack m ih =>
    intro hstack hm
    simp only [encodeKeyLoop]
    refine ih (fun e he => hstack e (by simp [he])) ?_
    intro q p hq
    rw [lookupKV_insertKV] at hq
    by_cases hqn : q = none
    · subst hqn
      rw [if_pos rfl] at hq
      obtain rfl : bits = p := Option.some_inj.mp hq
      have := hstack (bits, .EndOfInput) (by simp)
      simpa [terminalOf] using this
    · rw [if_neg hqn] at hq
      exact hm q p hq
  | case3 bits s stack m ih =>
    intro hstack hm
    simp only [encodeKeyLoop]
    refine ih (fun e he => hstack e (by simp [he])) ?_
    intro q p hq
    rw [lookupKV_insertKV] at hq
    by_cases hqs : q = some s
    · subst hqs
      rw [if_pos rfl] at hq
      obtain rfl : bits = p := Option.some_inj.mp hq
      have := hstack (bits, .Symbol s) (by simp)
      simpa [terminalOf] using this
    · rw [if_neg hqs] at hq
      exact hm q p hq
  | case4 bits l r stack m ih =>
    intro hstack hm
    simp only [encodeKeyLoop]
    refine ih ?_ hm
    intro e he
    have hbr := hstack (bits, .Branch l r) (by simp)
    simp only [List.mem_cons] at he
    rcases he with rfl | rfl | he
    · rw [follow_append, hbr]
      simp [follow]
    · rw [follow_append, hbr]
      simp [follow]
    · exact hstack e (by simp [he])

theorem encodeKeyLoop_lookup_total [DecidableEq α] :
    ∀ (stack : List (List Bool × HuffmanKey α)) (m : List (Option α × List Bool)),
      ∀ q, (q ∈ stack.flatMap (fun e => keySyms e.2) ∨ (lookupKV q m).isSome) →
        (lookupKV q (encodeKeyLoop stack m)).isSome := by
  intro stack m
  induction stack, m using encodeKeyLoop.induct with
  | case1 m =>
    intro q hq
    simp only [encodeKeyLoop]
    rcases hq with hq | hq
    · simp at hq
    · exact hq
  | case2 bits stack m ih =>
    intro q hq
    simp only [encodeKeyLoop]
    refine ih q ?_
    rcases hq with hq | hq
    · simp only [List.flatMap_cons, keySyms, List.mem_append, List.mem_singleton] at hq
      rcases hq with rfl | hq
      · right
        rw [lookupKV_insertKV, if_pos rfl]
        rfl
      · left
        exact hq
    · right
      rw [lookupKV_insertKV]
      split
      · rfl
      · exact hq
  | case3 bits s stack m ih =>
    intro q hq
    simp only [encodeKeyLoop]
    refine ih q ?_
    rcases hq with hq | hq
    · simp only [List.flatMap_cons, keySyms, List.mem_append, List.mem_singleton] at hq
      rcases hq with rfl | hq
      · right
        rw [lookupKV_insertKV, if_pos rfl]
        rfl
      · left
        exact hq
    · right
      rw [lookupKV_insertKV]
      split
      · rfl
      · exact hq
  | case4 bits l r stack m ih =>
    intro q hq
    simp only [encodeKeyLoop]
    refine ih q ?_
    rcases hq with hq | hq
    · left
      simp only [List.flatMap_cons, keySyms, List.mem_append] at hq ⊢
      tauto
    · right
      exact hq

theorem make_encode_key_valid [DecidableEq α] (key : HuffmanKey α) (q : Option α)
    (p : List Bool) (h : lookupKV q (make_encode_key key) = some p) :
    follow key p = some (terminalOf q) := by
  refine encodeKeyLoop_lookup_valid key [([], key)] [] ?_ ?_ q p h
  · intro e he
    simp only [List.mem_singleton] at he
    subst he
    exact follow_nil key
  · intro q p hq
    simp [lookupKV] at hq

theorem make_encode_key_total [DecidableEq α] (key : HuffmanKey α) (q : Option α)
    (h : q ∈ keySyms key) : (lookupKV q (make_encode_key key)).isSome := by
  refine encodeKeyLoop_lookup_total [([], key)] [] q (Or.inl ?_)
  simpa using h

/-- Spec-side decoder state machine, following the specification's wording:
start at the root; descend left on `false`, right on `true`; on a `Symbol`
terminal emit the symbol and reset to the root; on the `EndOfInput` terminal
stop successfully; if the bits are exhausted while at an internal branch,
fail ("not enough bits").  A complete root-to-terminal walk is one `follow`
step here. -/
inductive SpecDecode (key : HuffmanKey α) : List Bool → Option (List α) → Prop where
  | stop (p rest : List Bool) : follow key p = some .EndOfInput →
      SpecDecode key (p ++ rest) (some [])
  | emit (p rest : List Bool) (s : α) (out : Option (List α)) :
      follow key p = some (.Symbol s) → SpecDecode key rest out →
      SpecDecode key (p ++ rest) (Option.map (fun o => s :: o) out)
  | exhausted (bits : List Bool) (l r : HuffmanKey α) :
      follow key bits = some (.Branch l r) → SpecDecode key bits none

theorem specDecode_decodeLoop (key : HuffmanKey α) (hroot : rootIsSymbol key = false)
    (bits : List Bool) (r : Option (List α)) (h : SpecDecode key bits r) :
    ∀ fuel, bits.length + 1 ≤ fuel → decodeLoop fuel key bits = some r := by
  induction h with
  | stop p rest hf =>
    intro fuel hfuel
    cases fuel with
    | zero => omega
    | succ f =>
      simp only [decodeLoop]
      rw [decode_symbol_follow_eoi key p rest hf]
  | emit p rest s out hf hsd ih =>
    intro fuel hfuel
    cases fuel with
    | zero => omega
    | succ f =>
      simp only [decodeLoop]
      rw [decode_symbol_follow_symbol key p rest s hf]
      have hp : p ≠ [] := by
        intro hp
        subst hp
        rw [follow_nil] at hf
        obtain rfl := Option.some_inj.mp hf
        simp [rootIsSymbol] at hroot
      have hf2 : rest.length + 1 ≤ f := by
        have h1 : 1 ≤ p.length := by
          cases p with
          | nil => exact absurd rfl hp
          | cons b bs => simp
        simp only [List.length_append] at hfuel
        omega
      show Option.map (Option.map (fun o => s :: o)) (decodeLoop f key rest) =
        some (Option.map (fun o => s :: o) out)
      rw [ih f hf2]
      rfl
  | exhausted bits l r hf =>
    intro fuel hfuel
    cases fuel with
    | zero => omega
    | succ f =>
      simp only [decodeLoop]
      rw [decode_symbol_follow_branch key bits l r hf]

theorem specDecode_total_aux (key : HuffmanKey α) (hroot : rootIsSymbol key = false) :
    ∀ (n : Nat) (bits : List Bool), bits.length < n → ∃ r, SpecDecode key bits r := by
  intro n
  induction n with
  | zero => omega
  | succ n ih =>
    intro bits hn
    cases hds : decode_symbol key bits with
    | mk d rest =>
      cases d with
      | NotEnoughBits =>
        obtain ⟨-, l, r, hf⟩ := decode_symbol_neb_inv key bits rest hds
        exact ⟨none, SpecDecode.exhausted bits l r hf⟩
      | EndOfInput =>
        obtain ⟨p, rfl, hf⟩ := decode_symbol_eoi_inv key bits rest hds
        exact ⟨some [], SpecDecode.stop p rest hf⟩
      | Symbol s =>
        have hlt := decode_symbol_symbol_lt key bits rest s hroot hds
        obtain ⟨p, rfl, hf⟩ := decode_symbol_symbol_inv key bits rest s hds
        obtain ⟨r, hr⟩ := ih rest (by simp only [List.length_append] at hn hlt; omega)
        exact ⟨Option.map (fun o => s :: o) r, SpecDecode.emit p rest s r hf hr⟩

theorem specDecode_total (key : HuffmanKey α) (hroot : rootIsSymbol key = false)
    (bits : List Bool) : ∃ r, SpecDecode key bits r :=
  specDecode_total_aux key hroot (bits.length + 1) bits (by omega)

theorem specDecode_unique (key : HuffmanKey α) (hroot : rootIsSymbol key = false)
    (bits : List Bool) (r1 r2 : Option (List α))
    (h1 : SpecDecode key bits r1) (h2 : SpecDecode key bits r2) : r1 = r2 := by
  have e1 := specDecode_decodeLoop key hroot bits r1 h1 (bits.length + 1) le_rfl
  have e2 := specDecode_decodeLoop key hroot bits r2 h2 (bits.length + 1) le_rfl
  rw [e1] at e2
  exact Option.some_inj.mp e2

theorem decode_eq_specDecode (key : HuffmanKey α) (hroot : rootIsSymbol key = false)
    (encoded : List Nat) : SpecDecode key (bytesToBits encoded) (decode key encoded) := by
  obtain ⟨r, hr⟩ := specDecode_total key hroot (bytesToBits encoded)
  have he := specDecode_decodeLoop key hroot _ r hr ((bytesToBits encoded).length + 1) le_rfl
  have : decode key encoded = r := by
    rw [decode, he]
    rfl
  rw [this]
  exact hr

theorem lookup_path_ne_nil [DecidableEq α] (l r : HuffmanKey α) (q : Option α)
    (p : List Bool) (h : lookupKV q (make_encode_key (.Branch l r)) = some p) :
    p ≠ [] := by
  intro hp
  subst hp
  have h2 := make_encode_key_valid _ q [] h
  rw [follow_nil] at h2
  cases q <;> simp [terminalOf] at h2

theorem decodeLoop_encoded [DecidableEq α] (key : HuffmanKey α) :
    ∀ (ss : List α) (sb pe extra : List Bool) (fuel : Nat),
      encodeSymbols (make_encode_key key) ss = some sb →
      lookupKV none (make_encode_key key) = some pe →
      ss.length + 1 ≤ fuel →
      decodeLoop fuel key (sb ++ (pe ++ extra)) = some (some ss) := by
  intro ss
  induction ss with
  | nil =>
    intro sb pe extra fuel hsb hpe hfuel
    obtain rfl : ([] : List Bool) = sb := by simpa [encodeSymbols] using hsb
    cases fuel with
    | zero => omega
    | succ f =>
      simp only [decodeLoop]
      have hf := make_encode_key_valid key none pe hpe
      rw [List.nil_append,
        decode_symbol_follow_eoi key pe extra (by simpa [terminalOf] using hf)]
  | cons s rest ih =>
    intro sb pe extra fuel hsb hpe hfuel
    simp only [encodeSymbols] at hsb
    cases hlk : lookupKV (some s) (make_encode_key key) with
    | none => rw [hlk] at hsb; simp at hsb
    | some p =>
      rw [hlk] at hsb
      simp only [Option.map_eq_some'] at hsb
      obtain ⟨sb2, hsb2, rfl⟩ := hsb
      cases fuel with
      | zero => omega
      | succ f =>
        simp only [decodeLoop]
        have hf := make_encode_key_valid key (some s) p hlk
        rw [List.append_assoc,
          decode_symbol_follow_symbol key p _ s (by simpa [terminalOf] using hf)]
        show Option.map (Option.map (fun o => s :: o))
            (decodeLoop f key (sb2 ++ (pe ++ extra))) = some (some (s :: rest))
        rw [ih sb2 pe extra f hsb2 hpe
          (by simp only [List.length_cons] at hfuel; omega)]
        rfl

theorem encodeSymbols_length_ge [DecidableEq α] (l r : HuffmanKey α) :
    ∀ (ss : List α) (sb : List Bool),
      encodeSymbols (make_encode_key (.Branch l r)) ss = some sb →
      ss.length ≤ sb.length := by
  intro ss
  induction ss with
  | nil =>
    intro sb h
    obtain rfl : ([] : List Bool) = sb := by simpa [encodeSymbols] using h
    exact le_rfl
  | cons s rest ih =>
    intro sb h
    simp only [encodeSymbols] at h
    cases hlk : lookupKV (some s) (make_encode_key (.Branch l r)) with
    | none => rw [hlk] at h; simp at h
    | some p =>
      rw [hlk] at h
      simp only [Option.map_eq_some'] at h
      obtain ⟨sb2, hsb2, rfl⟩ := h
      have hp := lookup_path_ne_nil l r (some s) p hlk
      have h1 : 1 ≤ p.length := by
        cases p with
        | nil => exact absurd rfl hp
        | cons b bs => simp
      have := ih sb2 hsb2
      simp only [List.length_cons, List.length_append]
      omega

theorem follow_take_branch (k : HuffmanKey α) (p : List Bool) (t : HuffmanKey α) (m : Nat)
    (hf : follow k p = some t) (hm : m < p.length) :
    ∃ l2 r2, follow k (List.take m p) = some (.Branch l2 r2) := by
  conv at hf => rw [← List.take_append_drop m p]
  rw [follow_append] at hf
  cases hu : follow k (List.take m p) with
  | none => rw [hu] at hf; simp at hf
  | some u =>
    rw [hu] at hf
    simp only [Option.some_bind] at hf
    have hdrop : List.drop m p ≠ [] := by
      intro hd
      have := List.drop_eq_nil_iff.mp hd
      omega
    cases u with
    | EndOfInput =>
      cases hd : List.drop m p with
      | nil => exact absurd hd hdrop
      | cons b bs => rw [hd] at hf; simp [follow] at hf
    | Symbol s =>
      cases hd : List.drop m p with
      | nil => exact absurd hd hdrop
      | cons b bs => rw [hd] at hf; simp [follow] at hf
    | Branch l2 r2 => exact ⟨l2, r2, rfl⟩

theorem decodeLoop_truncated [DecidableEq α] (l0 r0 : HuffmanKey α) :
    ∀ (ss : List α) (sb pe : List Bool) (m fuel : Nat),
      encodeSymbols (make_encode_key (.Branch l0 r0)) ss = some sb →
      lookupKV none (make_encode_key (.Branch l0 r0)) = some pe →
      m < (sb ++ pe).length → m + 1 ≤ fuel →
      decodeLoop fuel (.Branch l0 r0) (List.take m (sb ++ pe)) = some none := by
  intro ss
  induction ss with
  | nil =>
    intro sb pe m fuel hsb hpe hm hfuel
    obtain rfl : ([] : List Bool) = sb := by simpa [encodeSymbols] using hsb
    rw [List.nil_append] at hm ⊢
    have hf := make_encode_key_valid _ none pe hpe
    obtain ⟨l2, r2, hbr⟩ :=
      follow_take_branch (.Branch l0 r0) pe (terminalOf none) m hf hm
    cases fuel with
    | zero => omega
    | succ f =>
      simp only [decodeLoop]
      rw [decode_symbol_follow_branch _ _ l2 r2 hbr]
  | cons s rest ih =>
    intro sb pe m fuel hsb hpe hm hfuel
    simp only [encodeSymbols] at hsb
    cases hlk : lookupKV (some s) (make_encode_key (.Branch l0 r0)) with
    | none => rw [hlk] at hsb; simp at hsb
    | some p =>
      rw [hlk] at hsb
      simp only [Option.map_eq_some'] at hsb
      obtain ⟨sb2, hsb2, rfl⟩ := hsb
      have hf := make_encode_key_valid _ (some s) p hlk
      have hp := lookup_path_ne_nil l0 r0 (some s) p hlk
      have h1 : 1 ≤ p.length := by
        cases p with
        | nil => exact absurd rfl hp
        | cons b bs => simp
      by_cases hmp : m < p.length
      · have htake : List.take m ((p ++ sb2) ++ pe) = List.take m p := by
          rw [List.append_assoc, List.take_append_eq_append_take,
            show m - p.length = 0 from by omega]
          simp
        obtain ⟨l2, r2, hbr⟩ :=
          follow_take_branch (.Branch l0 r0) p (terminalOf (some s)) m hf hmp
        cases fuel with
        | zero => omega
        | succ f =>
          simp only [decodeLoop]
          rw [htake, decode_symbol_follow_branch _ _ l2 r2 hbr]
      · have htake : List.take m ((p ++ sb2) ++ pe) =
            p ++ List.take (m - p.length) (sb2 ++ pe) := by
          rw [List.append_assoc, List.take_append_eq_append_take,
            List.take_of_length_le (by omega)]
        cases fuel with
        | zero => omega
        | succ f =>
          simp only [decodeLoop]
          rw [htake,
            decode_symbol_follow_symbol _ p _ s (by simpa [terminalOf] using hf)]
          show Option.map (Option.map (fun o => s :: o))
              (decodeLoop f (.Branch l0 r0) (List.take (m - p.length) (sb2 ++ pe))) =
            some none
          rw [ih sb2 pe (m - p.length) f hsb2 hpe
            (by simp only [List.length_append] at hm ⊢; omega) (by omega)]
          rfl

theorem buildTree_pop_none (q : List (HuffmanTree α)) (h : popMin q = none) :
    buildTree q = none := by
  rw [buildTree.eq_def, h]

theorem buildTree_one (q : List (HuffmanTree α)) (a : HuffmanTree α)
    (q1 : List (HuffmanTree α)) (h : popMin q = some (a, q1)) (h2 : popMin q1 = none) :
    buildTree q = some a := by
  rw [buildTree.eq_def]
  split
  · rename_i heq
    rw [h] at heq
    exact Option.noConfusion heq
  · rename_i a2 q12 heq
    rw [h] at heq
    injection heq with h3
    injection h3 with h4 h5
    subst h4
    subst h5
    split
    · rfl
    · rename_i b q2 heq2
      rw [h2] at heq2
      exact Option.noConfusion heq2

theorem buildTree_step (q : List (HuffmanTree α)) (a b : HuffmanTree α)
    (q1 q2 : List (HuffmanTree α)) (h : popMin q = some (a, q1))
    (h2 : popMin q1 = some (b, q2)) :
    buildTree q = buildTree (mergeTrees a b :: q2) := by
  rw [buildTree.eq_def]
  split
  · rename_i heq
    rw [h] at heq
    exact Option.noConfusion heq
  · rename_i a2 q12 heq
    rw [h] at heq
    injection heq with h3
    injection h3 with h4 h5
    subst h4
    subst h5
    split
    · rename_i heq2
      rw [h2] at heq2
      exact Option.noConfusion heq2
    · rename_i b2 q22 heq2
      rw [h2] at heq2
      injection heq2 with h6
      injection h6 with h7 h8
      subst h7
      subst h8
      rfl

theorem popMin_perm (q : List (HuffmanTree α)) (a : HuffmanTree α)
    (rest : List (HuffmanTree α)) (h : popMin q = some (a, rest)) :
    q.Perm (a :: rest) := by
  induction q generalizing a rest with
  | nil => simp [popMin] at h
  | cons t ts ih =>
    cases hts : popMin ts with
    | none =>
      simp only [popMin, hts] at h
      obtain ⟨rfl, rfl⟩ := h
      have hnil : ts = [] := (popMin_eq_none_iff ts).1 hts
      subst hnil
      exact List.Perm.refl _
    | some p =>
      obtain ⟨m, rest2⟩ := p
      simp only [popMin, hts] at h
      split at h
      · obtain ⟨rfl, rfl⟩ := h
        exact List.Perm.refl _
      · obtain ⟨rfl, rfl⟩ := h
        have hperm := ih _ _ hts
        exact (hperm.cons t).trans (List.Perm.swap a t rest2)

theorem popMin_min (q : List (HuffmanTree α)) (a : HuffmanTree α)
    (rest : List (HuffmanTree α)) (h : popMin q = some (a, rest)) :
    ∀ x ∈ rest, frequency a ≤ frequency x := by
  induction q generalizing a rest with
  | nil => simp [popMin] at h
  | cons t ts ih =>
    cases hts : popMin ts with
    | none =>
      simp only [popMin, hts] at h
      obtain ⟨rfl, rfl⟩ := h
      intro x hx
      simp at hx
    | some p =>
      obtain ⟨m, rest2⟩ := p
      simp only [popMin, hts] at h
      split at h
      · rename_i hle
        obtain ⟨rfl, rfl⟩ := h
        intro x hx
        have hperm := popMin_perm ts m rest2 hts
        have hx2 : x ∈ m :: rest2 := hperm.mem_iff.mp hx
        rcases List.mem_cons.mp hx2 with rfl | hx3
        · exact hle
        · exact le_trans hle (ih m rest2 hts x hx3)
      · rename_i hle
        obtain ⟨rfl, rfl⟩ := h
        intro x hx
        rcases List.mem_cons.mp hx with rfl | hx3
        · omega
        · exact ih a rest2 hts x hx3

theorem buildTree_isSome : ∀ (n : Nat) (q : List (HuffmanTree α)),
    q.length ≤ n → q ≠ [] → ∃ t, buildTree q = some t := by
  intro n
  induction n with
  | zero =>
    intro q hl hq
    cases q with
    | nil => exact absurd rfl hq
    | cons t ts => simp at hl
  | succ n ih =>
    intro q hl hq
    cases hp1 : popMin q with
    | none => exact absurd ((popMin_eq_none_iff q).mp hp1) hq
    | some p1 =>
      obtain ⟨a, q1⟩ := p1
      cases hp2 : popMin q1 with
      | none => exact ⟨a, buildTree_one q a q1 hp1 hp2⟩
      | some p2 =>
        obtain ⟨b, q2⟩ := p2
        have hlen1 := popMin_length _ _ _ hp1
        have hlen2 := popMin_length _ _ _ hp2
        obtain ⟨t, ht⟩ := ih (mergeTrees a b :: q2)
          (by simp only [List.length_cons]; omega) (by simp)
        exact ⟨t, (buildTree_step q a b q1 q2 hp1 hp2).trans ht⟩

theorem mergeTrees_branch (a b : HuffmanTree α) :
    ∃ f l r, mergeTrees a b = .Branch f l r := by
  unfold mergeTrees
  split
  · exact ⟨_, _, _, rfl⟩
  · exact ⟨_, _, _, rfl⟩

theorem buildTree_branch : ∀ (n : Nat) (q : List (HuffmanTree α)),
    q.length ≤ n → 2 ≤ q.length → ∀ t, buildTree q = some t →
      ∃ f l r, t = .Branch f l r := by
  intro n
  induction n with
  | zero =>
    intro q hl h2
    omega
  | succ n ih =>
    intro q hl h2 t ht
    cases hp1 : popMin q with
    | none =>
      rw [buildTree_pop_none q hp1] at ht
      exact Option.noConfusion ht
    | some p1 =>
      obtain ⟨a, q1⟩ := p1
      have hlen1 := popMin_length _ _ _ hp1
      cases hp2 : popMin q1 with
      | none =>
        have hnil : q1 = [] := (popMin_eq_none_iff q1).mp hp2
        subst hnil
        simp only [List.length_nil] at hlen1
        omega
      | some p2 =>
        obtain ⟨b, q2⟩ := p2
        have hlen2 := popMin_length _ _ _ hp2
        rw [buildTree_step q a b q1 q2 hp1 hp2] at ht
        cases q2 with
        | nil =>
          have h1 : popMin [mergeTrees a b] = some (mergeTrees a b, []) := by
            simp [popMin]
          rw [buildTree_one [mergeTrees a b] (mergeTrees a b) [] h1 rfl] at ht
          obtain rfl : mergeTrees a b = t := Option.some_inj.mp ht
          exact mergeTrees_branch a b
        | cons c q3 =>
          exact ih (mergeTrees a b :: c :: q3)
            (by simp only [List.length_cons] at hl hlen1 hlen2 ⊢; omega)
            (by simp) t ht

theorem treeSyms_merge (a b : HuffmanTree (Option α)) :
    (treeSyms (mergeTrees a b)).Perm (treeSyms a ++ treeSyms b) := by
  unfold mergeTrees
  split
  · exact List.Perm.refl _
  · exact List.perm_append_comm

theorem buildTree_syms : ∀ (n : Nat) (q : List (HuffmanTree (Option α))),
    q.length ≤ n → ∀ t, buildTree q = some t →
      (q.flatMap treeSyms).Perm (treeSyms t) := by
  intro n
  induction n with
  | zero =>
    intro q hl t ht
    cases q with
    | nil =>
      rw [buildTree_pop_none [] rfl] at ht
      exact Option.noConfusion ht
    | cons a as => simp at hl
  | succ n ih =>
    intro q hl t ht
    cases hp1 : popMin q with
    | none =>
      rw [buildTree_pop_none q hp1] at ht
      exact Option.noConfusion ht
    | some p1 =>
      obtain ⟨a, q1⟩ := p1
      have hlen1 := popMin_length _ _ _ hp1
      have perm1 := popMin_perm _ _ _ hp1
      cases hp2 : popMin q1 with
      | none =>
        have hnil : q1 = [] := (popMin_eq_none_iff q1).mp hp2
        subst hnil
        rw [buildTree_one q a [] hp1 hp2] at ht
        obtain rfl : a = t := Option.some_inj.mp ht
        have := List.Perm.flatMap_right treeSyms perm1
        simpa using this
      | some p2 =>
        obtain ⟨b, q2⟩ := p2
        have hlen2 := popMin_length _ _ _ hp2
        have perm2 := popMin_perm _ _ _ hp2
        rw [buildTree_step q a b q1 q2 hp1 hp2] at ht
        have ihm := ih (mergeTrees a b :: q2)
          (by simp only [List.length_cons] at hl hlen1 hlen2 ⊢; omega) t ht
        have e1 : (q.flatMap treeSyms).Perm ((a :: b :: q2).flatMap treeSyms) :=
          List.Perm.flatMap_right treeSyms (perm1.trans (perm2.cons a))
        have e2 : ((a :: b :: q2).flatMap treeSyms).Perm
            ((mergeTrees a b :: q2).flatMap treeSyms) := by
          simp only [List.flatMap_cons]
          rw [← List.append_assoc]
          exact ((treeSyms_merge a b).symm).append_right _
        exact (e1.trans e2).trans ihm

/-- Spec-side merge shape, from the specification's words: the two removed
nodes become the children of a branch whose frequency is their sum, the node
with strictly smaller frequency on the left (ties broken arbitrarily). -/
def SpecMergeOK (a b c : HuffmanTree α) : Prop :=
  (c = .Branch (frequency a + frequency b) a b ∧ frequency a ≤ frequency b) ∨
  (c = .Branch (frequency a + frequency b) b a ∧ frequency b ≤ frequency a)

/-- Spec-side tree-builder relation, from the specification's words: repeatedly
remove the two lowest-frequency nodes of the pool (`a` lowest overall, `b`
lowest among the rest), merge them, push the branch back, until one node
remains.  The pool is a multiset, so heap tie-breaking is left open. -/
inductive SpecBuild : Multiset (HuffmanTree α) → HuffmanTree α → Prop where
  | single (t : HuffmanTree α) : SpecBuild {t} t
  | merge (a b c t : HuffmanTree α) (q : Multiset (HuffmanTree α)) :
      (∀ x ∈ b ::ₘ q, frequency a ≤ frequency x) →
      (∀ x ∈ q, frequency b ≤ frequency x) →
      SpecMergeOK a b c →
      SpecBuild (c ::ₘ q) t →
      SpecBuild (a ::ₘ b ::ₘ q) t

theorem mergeTrees_specMergeOK (a b : HuffmanTree α)
    (hab : frequency a ≤ frequency b) : SpecMergeOK a b (mergeTrees a b) := by
  unfold SpecMergeOK mergeTrees
  by_cases h : frequency a < frequency b
  · left
    exact ⟨by rw [if_pos h], le_of_lt h⟩
  · right
    exact ⟨by rw [if_neg h], by omega⟩

theorem buildTree_specBuild : ∀ (n : Nat) (q : List (HuffmanTree α)),
    q.length ≤ n → q ≠ [] →
      ∃ t, buildTree q = some t ∧ SpecBuild (↑q : Multiset (HuffmanTree α)) t := by
  intro n
  induction n with
  | zero =>
    intro q hl hq
    cases q with
    | nil => exact absurd rfl hq
    | cons t ts => simp at hl
  | succ n ih =>
    intro q hl hq
    cases hp1 : popMin q with
    | none => exact absurd ((popMin_eq_none_iff q).mp hp1) hq
    | some p1 =>
      obtain ⟨a, q1⟩ := p1
      have hlen1 := popMin_length _ _ _ hp1
      have perm1 := popMin_perm _ _ _ hp1
      cases hp2 : popMin q1 with
      | none =>
        have hnil : q1 = [] := (popMin_eq_none_iff q1).mp hp2
        subst hnil
        refine ⟨a, buildTree_one q a [] hp1 hp2, ?_⟩
        have hcoe : (↑q : Multiset (HuffmanTree α)) = {a} := by
          rw [show ({a} : Multiset (HuffmanTree α)) = ↑[a] from rfl,
            Multiset.coe_eq_coe]
          exact perm1
        rw [hcoe]
        exact SpecBuild.single a
      | some p2 =>
        obtain ⟨b, q2⟩ := p2
        have hlen2 := popMin_length _ _ _ hp2
        have perm2 := popMin_perm _ _ _ hp2
        have hmin1 := popMin_min _ _ _ hp1
        have hmin2 := popMin_min _ _ _ hp2
        obtain ⟨t, ht, hspec⟩ := ih (mergeTrees a b :: q2)
          (by simp only [List.length_cons] at hl hlen1 hlen2 ⊢; omega) (by simp)
        refine ⟨t, (buildTree_step q a b q1 q2 hp1 hp2).trans ht, ?_⟩
        have hb1 : b ∈ q1 := (perm2.symm.subset (List.mem_cons_self b q2))
        have hab : frequency a ≤ frequency b := hmin1 b hb1
        have hq2 : (↑q : Multiset (HuffmanTree α)) = a ::ₘ b ::ₘ (↑q2 : Multiset _) := by
          rw [Multiset.cons_coe, Multiset.cons_coe, Multiset.coe_eq_coe]
          exact perm1.trans (perm2.cons a)
        rw [hq2]
        refine SpecBuild.merge a b (mergeTrees a b) t ↑q2 ?_ ?_
          (mergeTrees_specMergeOK a b hab) ?_
        · intro x hx
          rcases Multiset.mem_cons.mp hx with rfl | hx2
          · exact hab
          · have hxq2 : x ∈ q2 := by exact_mod_cast hx2
            exact hmin1 x (perm2.symm.subset (List.mem_cons_of_mem b hxq2))
        · intro x hx
          have hxq2 : x ∈ q2 := by exact_mod_cast hx
          exact hmin2 x hxq2
        · rw [Multiset.cons_coe]
          exact hspec

/-- Terminal labels are preserved when frequency annotations are stripped. -/
theorem keySyms_tree_to_key (t : HuffmanTree (Option α)) :
    keySyms (tree_to_key t) = treeSyms t := by
  induction t with
  | Leaf f s => cases s <;> rfl
  | Branch f l r ihl ihr => simp [tree_to_key, keySyms, treeSyms, ihl, ihr]

/-- Lookup in the frequency-table association list. -/
def alLookup [DecidableEq α] (s : α) : List (α × Nat) → Option Nat
  | [] => none
  | (t, n) :: rest => if t = s then some n else alLookup s rest

theorem alLookup_none_iff [DecidableEq α] (t : α) (m : List (α × Nat)) :
    alLookup t m = none ↔ t ∉ m.map Prod.fst := by
  induction m with
  | nil => simp [alLookup]
  | cons e m ih =>
    obtain ⟨a, v⟩ := e
    by_cases h : a = t
    · subst h
      simp [alLookup]
    · have h2 : ¬(t = a) := fun hh => h hh.symm
      simp only [alLookup, if_neg h, ih, List.map_cons, List.mem_cons, not_or]
      tauto

theorem alLookup_append [DecidableEq α] (t : α) (m1 m2 : List (α × Nat)) :
    alLookup t (m1 ++ m2) =
      match alLookup t m1 with
      | some v => some v
      | none => alLookup t m2 := by
  induction m1 with
  | nil => simp [alLookup]
  | cons e m1 ih =>
    obtain ⟨a, v⟩ := e
    by_cases h : a = t
    · subst h
      simp [alLookup]
    · simp [alLookup, h, ih]

theorem bumpCount_lookup [DecidableEq α] (s t : α) (m : List (α × Nat)) :
    alLookup t (bumpCount s m) =
      if t = s then some ((alLookup s m).getD 0 + 1) else alLookup t m := by
  induction m with
  | nil =>
    by_cases h : t = s
    · subst h
      simp [bumpCount, alLookup]
    · have h2 : ¬(s = t) := fun hh => h hh.symm
      simp [bumpCount, alLookup, h, h2]
  | cons e m ih =>
    obtain ⟨a, n⟩ := e
    by_cases has : a = s
    · subst has
      simp only [bumpCount, if_pos rfl]
      by_cases hta : t = a
      · subst hta
        simp [alLookup]
      · have h2 : ¬(a = t) := fun hh => hta hh.symm
        simp [alLookup, h2, hta]
    · simp only [bumpCount, if_neg has]
      by_cases hta : t = s
      · subst hta
        have h2 : ¬(a = t) := fun hh => has hh
        simp [alLookup, h2, ih, has]
      · by_cases hat : a = t
        · subst hat
          simp [alLookup, hta]
        · simp [alLookup, hat, ih, hta]

theorem bumpCount_keys [DecidableEq α] (s : α) (m : List (α × Nat)) :
    (bumpCount s m).map Prod.fst =
      if s ∈ m.map Prod.fst then m.map Prod.fst else m.map Prod.fst ++ [s] := by
  induction m with
  | nil => simp [bumpCount]
  | cons e m ih =>
    obtain ⟨a, n⟩ := e
    by_cases has : a = s
    · subst has
      simp [bumpCount]
    · have h2 : ¬(s = a) := fun hh => has hh.symm
      simp only [bumpCount, if_neg has, List.map_cons, List.mem_cons, h2, false_or]
      rw [ih]
      split
      · rfl
      · rfl

theorem bumpCount_keys_nodup [DecidableEq α] (s : α) (m : List (α × Nat))
    (h : (m.map Prod.fst).Nodup) : ((bumpCount s m).map Prod.fst).Nodup := by
  rw [bumpCount_keys]
  split
  · exact h
  · rename_i hnot
    simp only [List.nodup_append, List.nodup_cons, List.nodup_nil, and_true]
    exact ⟨h, by simpa using hnot⟩

theorem sf_aux_lookup [DecidableEq α] :
    ∀ (l : List α) (m : List (α × Nat)) (t : α),
      alLookup t (List.foldl (fun acc s => bumpCount s acc) m l) =
        if t ∈ l then some ((alLookup t m).getD 0 + l.count t) else alLookup t m := by
  intro l
  induction l with
  | nil =>
    intro m t
    simp
  | cons s l ih =>
    intro m t
    simp only [List.foldl_cons]
    rw [ih (bumpCount s m) t]
    by_cases hts : t = s
    · subst hts
      simp only [bumpCount_lookup, eq_self_iff_true, if_true, Option.getD_some,
        List.mem_cons, true_or, List.count_cons_self]
      by_cases htl : t ∈ l
      · simp only [htl, if_true]
        congr 1
        omega
      · simp only [htl, if_false, List.count_eq_zero.mpr htl]
    · simp only [bumpCount_lookup, hts, if_false]
      have hmem : (t ∈ s :: l) ↔ (t ∈ l) := by
        simp [List.mem_cons, hts]
      have hcnt : (s :: l).count t = l.count t := by
        simp [List.count_cons, hts]
      by_cases htl : t ∈ l
      · rw [if_pos htl, if_pos (hmem.mpr htl), hcnt]
      · rw [if_neg htl, if_neg (fun hh => htl (hmem.mp hh))]

theorem symbol_frequency_lookup [DecidableEq α] (content : List α) (t : α) :
    alLookup t (symbol_frequency content) =
      if t ∈ content then some (content.count t) else none := by
  have h := sf_aux_lookup content [] t
  simp only [symbol_frequency]
  rw [h]
  simp [alLookup]

theorem sf_aux_keys_nodup [DecidableEq α] :
    ∀ (l : List α) (m : List (α × Nat)), (m.map Prod.fst).Nodup →
      ((List.foldl (fun acc s => bumpCount s acc) m l).map Prod.fst).Nodup := by
  intro l
  induction l with
  | nil => intro m h; exact h
  | cons s l ih =>
    intro m h
    simp only [List.foldl_cons]
    exact ih (bumpCount s m) (bumpCount_keys_nodup s m h)

theorem symbol_frequency_keys_nodup [DecidableEq α] (content : List α) :
    ((symbol_frequency content).map Prod.fst).Nodup :=
  sf_aux_keys_nodup content [] (by simp)

theorem symbol_frequency_keys_mem [DecidableEq α] (content : List α) (s : α) :
    s ∈ (symbol_frequency content).map Prod.fst ↔ s ∈ content := by
  rw [← not_iff_not, ← alLookup_none_iff, symbol_frequency_lookup]
  by_cases h : s ∈ content
  · simp [h]
  · simp [h]

theorem alLookup_split [DecidableEq α] :
    ∀ (m : List (α × Nat)) (a : α) (v : Nat), alLookup a m = some v →
      ∃ m1 m2, m = m1 ++ (a, v) :: m2 ∧ a ∉ m1.map Prod.fst := by
  intro m
  induction m with
  | nil => intro a v h; simp [alLookup] at h
  | cons e m ih =>
    obtain ⟨b, w⟩ := e
    intro a v h
    by_cases hba : b = a
    · subst hba
      simp only [alLookup, eq_self_iff_true, if_true, Option.some_inj] at h
      subst h
      exact ⟨[], m, rfl, by simp⟩
    · simp only [alLookup, if_neg hba] at h
      obtain ⟨m1, m2, rfl, hnot⟩ := ih a v h
      refine ⟨(b, w) :: m1, m2, rfl, ?_⟩
      simp only [List.map_cons, List.mem_cons]
      rintro (rfl | hmem)
      · exact hba rfl
      · exact hnot hmem

theorem alPerm [DecidableEq α] :
    ∀ (m1 m2 : List (α × Nat)), (m1.map Prod.fst).Nodup → (m2.map Prod.fst).Nodup →
      (∀ t, alLookup t m1 = alLookup t m2) → m1.Perm m2 := by
  intro m1
  induction m1 with
  | nil =>
    intro m2 _ _ h
    cases m2 with
    | nil => exact List.Perm.refl _
    | cons e m2 =>
      obtain ⟨a, v⟩ := e
      have := h a
      simp [alLookup] at this
  | cons e m1 ih =>
    obtain ⟨a, v⟩ := e
    intro m2 h1 h2 h
    have ha : alLookup a m2 = some v := by
      have := h a
      simp only [alLookup, if_pos rfl] at this
      exact this.symm
    obtain ⟨m2a, m2b, rfl, hnotin⟩ := alLookup_split m2 a v ha
    have hperm2 : (m2a ++ (a, v) :: m2b).Perm ((a, v) :: (m2a ++ m2b)) :=
      List.perm_middle
    have h1a : a ∉ m1.map Prod.fst := by
      simp only [List.map_cons, List.nodup_cons] at h1
      exact h1.1
    have h1tail : (m1.map Prod.fst).Nodup := by
      simp only [List.map_cons, List.nodup_cons] at h1
      exact h1.2
    have hamid : a ∉ m2b.map Prod.fst := by
      intro hmem
      have := h2
      simp only [List.map_append, List.map_cons, List.nodup_append,
        List.nodup_cons] at this
      exact this.2.1.1 hmem
    have h2tail : ((m2a ++ m2b).map Prod.fst).Nodup := by
      have hsub : ((m2a ++ m2b).map Prod.fst).Sublist
          ((m2a ++ (a, v) :: m2b).map Prod.fst) := by
        simp only [List.map_append, List.map_cons]
        exact List.Sublist.append_left (List.sublist_cons_self _ _) _
      exact h2.sublist hsub
    have hlk : ∀ t, alLookup t m1 = alLookup t (m2a ++ m2b) := by
      intro t
      by_cases hta : t = a
      · subst hta
        have e1 : alLookup t m1 = none := (alLookup_none_iff t m1).mpr h1a
        have e2 : alLookup t (m2a ++ m2b) = none := by
          rw [alLookup_append]
          rw [(alLookup_none_iff t m2a).mpr hnotin,
            (alLookup_none_iff t m2b).mpr hamid]
        rw [e1, e2]
      · have hat : ¬(a = t) := fun hh => hta hh.symm
        have hstep := h t
        rw [show alLookup t ((a, v) :: m1) = alLookup t m1 from by
          simp [alLookup, hat]] at hstep
        rw [hstep, alLookup_append, alLookup_append]
        have e3 : alLookup t ((a, v) :: m2b) = alLookup t m2b := by
          simp [alLookup, hat]
        rw [e3]
    have := ih (m2a ++ m2b) h1tail h2tail hlk
    exact (this.cons (a, v)).trans hperm2.symm

theorem alLookup_map_pair [DecidableEq α] (xs : List α) (f : α → Nat) (t : α) :
    alLookup t (xs.map (fun s => (s, f s))) =
      if t ∈ xs then some (f t) else none := by
  induction xs with
  | nil => simp [alLookup]
  | cons x xs ih =>
    by_cases h : x = t
    · subst h
      simp [alLookup]
    · have h2 : ¬(t = x) := fun hh => h hh.symm
      simp only [List.map_cons, alLookup, if_neg h, ih, List.mem_cons, h2, false_or]

theorem symbol_frequency_perm [DecidableEq α] (content : List α) :
    (symbol_frequency content).Perm
      (content.dedup.map (fun s => (s, content.count s))) := by
  apply alPerm
  · exact symbol_frequency_keys_nodup content
  · have hcomp : (Prod.fst ∘ fun s : α => (s, content.count s)) = id := rfl
    have hkeys : (content.dedup.map (fun s => (s, content.count s))).map Prod.fst =
        content.dedup := by
      rw [List.map_map, hcomp, List.map_id]
    rw [hkeys]
    exact content.nodup_dedup
  · intro t
    rw [symbol_frequency_lookup, alLookup_map_pair]
    simp [List.mem_dedup]

theorem make_key_isSome [DecidableEq α] (content : List α) :
    ∃ key, make_key content = some key := by
  obtain ⟨t, ht⟩ := buildTree_isSome (initQueue content).length (initQueue content)
    le_rfl (by simp [initQueue])
  exact ⟨tree_to_key t, by rw [make_key, ht]; rfl⟩

theorem leaves_flatMap_syms (m : List (α × Nat)) :
    (m.map (fun p => HuffmanTree.Leaf p.2 (some p.1))).flatMap treeSyms =
      m.map (fun p => (some p.1 : Option α)) := by
  induction m with
  | nil => rfl
  | cons e m ih => simp [treeSyms, ih]

theorem initQueue_syms [DecidableEq α] (content : List α) :
    (initQueue content).flatMap treeSyms =
      ((symbol_frequency content).map (fun p => (some p.1 : Option α))) ++ [none] := by
  rw [initQueue, List.flatMap_append, leaves_flatMap_syms]
  rfl

theorem make_key_syms [DecidableEq α] (content : List α) (key : HuffmanKey α)
    (h : make_key content = some key) :
    (keySyms key).Perm
      (((symbol_frequency content).map (fun p => (some p.1 : Option α))) ++ [none]) := by
  rw [make_key] at h
  cases hbt : buildTree (initQueue content) with
  | none => rw [hbt] at h; simp at h
  | some t =>
    rw [hbt] at h
    obtain rfl : tree_to_key t = key := Option.some_inj.mp h
    rw [keySyms_tree_to_key]
    have hperm := buildTree_syms (initQueue content).length (initQueue content) le_rfl t hbt
    rw [initQueue_syms] at hperm
    exact hperm.symm

theorem make_key_branch [DecidableEq α] (content : List α) (hc : content ≠ [])
    (key : HuffmanKey α) (h : make_key content = some key) :
    ∃ l r, key = .Branch l r := by
  rw [make_key] at h
  cases hbt : buildTree (initQueue content) with
  | none => rw [hbt] at h; simp at h
  | some t =>
    rw [hbt] at h
    obtain rfl : tree_to_key t = key := Option.some_inj.mp h
    have hsf : symbol_frequency content ≠ [] := by
      intro hnil
      cases content with
      | nil => exact hc rfl
      | cons c cs =>
        have : c ∈ (symbol_frequency (c :: cs)).map Prod.fst :=
          (symbol_frequency_keys_mem (c :: cs) c).mpr (by simp)
        rw [hnil] at this
        simp at this
    have hlen : 2 ≤ (initQueue content).length := by
      rw [initQueue, List.length_append]
      have : 1 ≤ (symbol_frequency content).length := by
        cases hsf2 : symbol_frequency content with
        | nil => exact absurd hsf2 hsf
        | cons e m => simp
      simp only [List.length_map, List.length_cons, List.length_nil]
      omega
    obtain ⟨f, l, r, rfl⟩ :=
      buildTree_branch (initQueue content).length (initQueue content) le_rfl hlen t hbt
    exact ⟨tree_to_key l, tree_to_key r, rfl⟩

theorem make_key_mem_syms [DecidableEq α] (content : List α) (key : HuffmanKey α)
    (h : make_key content = some key) :
    (∀ s ∈ content, some s ∈ keySyms key) ∧ none ∈ keySyms key := by
  have hperm := make_key_syms content key h
  constructor
  · intro s hs
    refine hperm.mem_iff.mpr (List.mem_append_left _ ?_)
    have hmem : s ∈ (symbol_frequency content).map Prod.fst :=
      (symbol_frequency_keys_mem content s).mpr hs
    simp only [List.mem_map] at hmem ⊢
    obtain ⟨p, hp, hfst⟩ := hmem
    exact ⟨p, hp, by rw [hfst]⟩
  · exact hperm.mem_iff.mpr (List.mem_append_right _ (by simp))

theorem encodeSymbols_isSome [DecidableEq α] (table : List (Option α × List Bool)) :
    ∀ ss : List α, (∀ s ∈ ss, (lookupKV (some s) table).isSome) →
      ∃ sb, encodeSymbols table ss = some sb := by
  intro ss
  induction ss with
  | nil => intro _; exact ⟨[], rfl⟩
  | cons s rest ih =>
    intro hmem
    obtain ⟨p, hp⟩ := Option.isSome_iff_exists.mp (hmem s (by simp))
    obtain ⟨sb, hsb⟩ := ih (fun x hx => hmem x (by simp [hx]))
    refine ⟨p ++ sb, ?_⟩
    simp only [encodeSymbols, hp, hsb]
    rfl

theorem encode_eq [DecidableEq α] (content : List α) (key : HuffmanKey α)
    (bytes : List Nat) (h : encode content = some (key, bytes)) :
    make_key content = some key ∧
      ∃ sb pe, encodeSymbols (make_encode_key key) content = some sb ∧
        lookupKV none (make_encode_key key) = some pe ∧
        bytes = bitsToBytes (sb ++ pe) := by
  simp only [encode, encodeBits] at h
  cases hmk : make_key content with
  | none => rw [hmk] at h; simp at h
  | some key2 =>
    rw [hmk] at h
    simp only [Option.some_bind] at h
    cases hsb : encodeSymbols (make_encode_key key2) content with
    | none => rw [hsb] at h; simp at h
    | some sb =>
      rw [hsb] at h
      simp only [Option.some_bind] at h
      cases hpe : lookupKV none (make_encode_key key2) with
      | none => rw [hpe] at h; simp at h
      | some pe =>
        rw [hpe] at h
        simp only [Option.map_some', Option.some_inj, Prod.mk.injEq] at h
        obtain ⟨rfl, rfl⟩ := h
        exact ⟨rfl, sb, pe, hsb, hpe, rfl⟩

theorem encode_isSome [DecidableEq α] (content : List α) :
    ∃ key bytes, encode content = some (key, bytes) := by
  obtain ⟨key, hmk⟩ := make_key_isSome content
  obtain ⟨hmem, hnone⟩ := make_key_mem_syms content key hmk
  obtain ⟨sb, hsb⟩ := encodeSymbols_isSome (make_encode_key key) content
    (fun s hs => make_encode_key_total key (some s) (hmem s hs))
  obtain ⟨pe, hpe⟩ :=
    Option.isSome_iff_exists.mp (make_encode_key_total key none hnone)
  refine ⟨key, bitsToBytes (sb ++ pe), ?_⟩
  simp only [encode, encodeBits, hmk, hsb, hpe, Option.some_bind, Option.map_some']

theorem bytesToBits_dropLast (bytes : List Nat) (h : bytes ≠ []) :
    bytesToBits bytes.dropLast =
      List.take (8 * (bytes.length - 1)) (bytesToBits bytes) := by
  obtain ⟨ys, y, rfl⟩ : ∃ ys y, bytes = ys ++ [y] :=
    ⟨bytes.dropLast, bytes.getLast h, (List.dropLast_append_getLast h).symm⟩
  rw [List.dropLast_concat, bytesToBits_append, List.length_append]
  simp only [List.length_cons, List.length_nil]
  have he : ys.length + (0 + 1) - 1 = ys.length := by omega
  rw [he, List.take_append_eq_append_take,
    List.take_of_length_le (le_of_eq (bytesToBits_length ys)), bytesToBits_length,
    Nat.sub_self]
  simp

/-- Occurrence count of an element in a list (used to state leaf-multiset
facts about coding trees). -/
def occCount {β : Type} [DecidableEq β] (x : β) : List β → Nat
  | [] => 0
  | y :: ys => (if y = x then 1 else 0) + occCount x ys

theorem occCount_append {β : Type} [DecidableEq β] (x : β) (l1 l2 : List β) :
    occCount x (l1 ++ l2) = occCount x l1 + occCount x l2 := by
  induction l1 with
  | nil => simp [occCount]
  | cons y ys ih =>
    rw [show (y :: ys) ++ l2 = y :: (ys ++ l2) from rfl,
      show occCount x (y :: (ys ++ l2)) =
        (if y = x then 1 else 0) + occCount x (ys ++ l2) from rfl,
      show occCount x (y :: ys) = (if y = x then 1 else 0) + occCount x ys from rfl,
      ih]
    omega

theorem occCount_perm {β : Type} [DecidableEq β] (x : β) (l1 l2 : List β)
    (h : l1.Perm l2) : occCount x l1 = occCount x l2 := by
  induction h with
  | nil => rfl
  | cons y h ih => simp only [occCount, ih]
  | swap y z l =>
    simp only [occCount]
    generalize (if z = x then 1 else 0) = a
    generalize (if y = x then 1 else 0) = b
    omega
  | trans h1 h2 ih1 ih2 => exact ih1.trans ih2

theorem occCount_eq_zero_of_not_mem {β : Type} [DecidableEq β] (x : β)
    (l : List β) (h : x ∉ l) : occCount x l = 0 := by
  induction l with
  | nil => rfl
  | cons y ys ih =>
    simp only [List.mem_cons, not_or] at h
    have hyx : ¬(y = x) := fun hh => h.1 hh.symm
    simp only [occCount, if_neg hyx, ih h.2]

theorem occCount_eq_one_of_nodup_mem {β : Type} [DecidableEq β] (x : β)
    (l : List β) (hnd : l.Nodup) (hm : x ∈ l) : occCount x l = 1 := by
  induction l with
  | nil => simp at hm
  | cons y ys ih =>
    simp only [List.nodup_cons] at hnd
    rcases List.mem_cons.mp hm with rfl | hmem
    · simp only [occCount, if_pos rfl, occCount_eq_zero_of_not_mem x ys hnd.1]
      rfl
    · have hxy : ¬(y = x) := fun hh => hnd.1 (hh ▸ hmem)
      simp only [occCount, if_neg hxy, ih hnd.2 hmem]

theorem occCount_map_some {β : Type} [DecidableEq β] (x : β) (l : List β) :
    occCount (some x) (l.map some) = occCount x l := by
  induction l with
  | nil => rfl
  | cons y ys ih =>
    simp only [List.map_cons, occCount, ih]
    by_cases h : y = x
    · simp [h]
    · simp [h, fun hh : some y = some x => h (Option.some_inj.mp hh)]

theorem occCount_none_map_some {β : Type} [DecidableEq β] (l : List β) :
    occCount (none : Option β) (l.map some) = 0 := by
  induction l with
  | nil => rfl
  | cons y ys ih => simp [occCount, ih]

theorem branch_of_two_leaves (key : HuffmanKey α) (h : 2 ≤ (keySyms key).length) :
    ∃ l r, key = .Branch l r := by
  cases key with
  | EndOfInput => simp [keySyms] at h
  | Symbol s => simp [keySyms] at h
  | Branch l r => exact ⟨l, r, rfl⟩

/-- Claim C8: for every input, `encode` runs to completion: the modelled
`panic!` branches (symbol or end-of-input marker missing from the code table,
and the priority-queue pop finding the queue empty, all modelled as `none`)
are unreachable. -/
theorem claim_no_internal_panic [DecidableEq α] (content : List α) :
    make_key content ≠ none ∧ encode content ≠ none := by
  obtain ⟨key, bytes, h⟩ := encode_isSome content
  have hmk := (encode_eq content key bytes h).1
  exact ⟨by rw [hmk]; simp, by rw [h]; simp⟩

/-- Claim C1: for every non-empty symbol sequence, `encode` succeeds and
decoding the produced bytes with the produced coding tree reproduces the
input exactly. -/
theorem claim_roundtrip [DecidableEq α] (content : List α) (hc : content ≠ []) :
    ∃ key bytes, encode content = some (key, bytes) ∧
      decode key bytes = some content := by
  obtain ⟨key, bytes, henc⟩ := encode_isSome content
  refine ⟨key, bytes, henc, ?_⟩
  obtain ⟨hmk, sb, pe, hsb, hpe, rfl⟩ := encode_eq content key bytes henc
  obtain ⟨l, r, rfl⟩ := make_key_branch content hc key hmk
  obtain ⟨k, hk8, hbits, hlen⟩ := bytesToBits_bitsToBytes (sb ++ pe)
  have hsslen := encodeSymbols_length_ge l r content sb hsb
  have hpene := lookup_path_ne_nil l r none pe hpe
  have hpelen : 1 ≤ pe.length := by
    cases pe with
    | nil => exact absurd rfl hpene
    | cons b bs => simp
  have hdl := decodeLoop_encoded (.Branch l r) content sb pe (List.replicate k false)
    ((sb ++ (pe ++ List.replicate k false)).length + 1) hsb hpe
    (by simp only [List.length_append, List.length_replicate]; omega)
  simp only [decode, hbits, List.append_assoc]
  rw [hdl]
  rfl

/-- Claim C6: dropping the final byte of the encoded stream and decoding with
the same tree either still returns the original input (the dropped byte was
pure padding) or fails; it never succeeds with a different result. -/
theorem claim_truncation_safe [DecidableEq α] (content : List α) (hc : content ≠ [])
    (key : HuffmanKey α) (bytes : List Nat)
    (henc : encode content = some (key, bytes)) (hb : bytes ≠ []) :
    decode key bytes.dropLast = some content ∨ decode key bytes.dropLast = none := by
  obtain ⟨hmk, sb, pe, hsb, hpe, rfl⟩ := encode_eq content key bytes henc
  obtain ⟨l, r, rfl⟩ := make_key_branch content hc key hmk
  obtain ⟨k, hk8, hbits, hlen⟩ := bytesToBits_bitsToBytes (sb ++ pe)
  have htrunc := bytesToBits_dropLast _ hb
  by_cases hcase : (sb ++ pe).length ≤ 8 * ((bitsToBytes (sb ++ pe)).length - 1)
  · left
    have hfull : bytesToBits (bitsToBytes (sb ++ pe)).dropLast =
        sb ++ (pe ++
          List.replicate
            (8 * ((bitsToBytes (sb ++ pe)).length - 1) - (sb ++ pe).length) false) := by
      rw [htrunc, hbits, List.take_append_eq_append_take,
        List.take_of_length_le hcase, List.take_replicate,
        Nat.min_eq_left (by omega), List.append_assoc]
    have hsslen := encodeSymbols_length_ge l r content sb hsb
    have hdl := decodeLoop_encoded (.Branch l r) content sb pe
      (List.replicate (8 * ((bitsToBytes (sb ++ pe)).length - 1) - (sb ++ pe).length)
        false)
      ((sb ++ (pe ++
          List.replicate
            (8 * ((bitsToBytes (sb ++ pe)).length - 1) - (sb ++ pe).length)
            false)).length + 1) hsb hpe
      (by simp only [List.length_append] at hcase hsslen ⊢; omega)
    simp only [decode, hfull]
    rw [hdl]
    rfl
  · right
    push_neg at hcase
    have hfull : bytesToBits (bitsToBytes (sb ++ pe)).dropLast =
        List.take (8 * ((bitsToBytes (sb ++ pe)).length - 1)) (sb ++ pe) := by
      rw [htrunc, hbits, List.take_append_eq_append_take,
        show 8 * ((bitsToBytes (sb ++ pe)).length - 1) - (sb ++ pe).length = 0 from
          by omega]
      simp
    have htl : (List.take (8 * ((bitsToBytes (sb ++ pe)).length - 1))
        (sb ++ pe)).length = 8 * ((bitsToBytes (sb ++ pe)).length - 1) := by
      rw [List.length_take]
      omega
    have hdl := decodeLoop_truncated l r content sb pe
      (8 * ((bitsToBytes (sb ++ pe)).length - 1))
      (8 * ((bitsToBytes (sb ++ pe)).length - 1) + 1) hsb hpe hcase le_rfl
    simp only [decode, hfull, htl]
    rw [hdl]
    rfl

/-- Claim C5: for a coding tree satisfying the data-model invariant (at least
two leaves), `decode` behaves exactly as the specified bit-by-bit state
machine: it fails precisely when the bits are exhausted at an internal branch
before the end-of-input terminal, and otherwise returns exactly the symbols
emitted before the end-of-input terminal (left on `false`, right on `true`,
reset to the root after each emitted symbol). -/
theorem claim_decode_characterization (key : HuffmanKey α) (bytes : List Nat)
    (h2 : 2 ≤ (keySyms key).length) :
    SpecDecode key (bytesToBits bytes) (decode key bytes) ∧
      ∀ r, SpecDecode key (bytesToBits bytes) r → r = decode key bytes := by
  obtain ⟨l, r0, rfl⟩ := branch_of_two_leaves key h2
  have hroot : rootIsSymbol (HuffmanKey.Branch l r0) = false := rfl
  refine ⟨decode_eq_specDecode _ hroot bytes, ?_⟩
  intro r hr
  exact specDecode_unique _ hroot _ r _ hr (decode_eq_specDecode _ hroot bytes)

/-- Claim C7: for a coding tree satisfying the data-model invariant (at least
two leaves) and an n-byte input, `decode` terminates — its loop result is
stable at fuel `8n + 1`, one iteration per bit plus the final one — and each
emitted symbol consumes at least one bit, so at most `8n` symbols are
returned. -/
theorem claim_decode_terminates (key : HuffmanKey α) (bytes : List Nat)
    (h2 : 2 ≤ (keySyms key).length) :
    (∃ res, ∀ fuel, (bytesToBits bytes).length + 1 ≤ fuel →
        decodeLoop fuel key (bytesToBits bytes) = some res) ∧
    ∀ out, decode key bytes = some out → out.length ≤ 8 * bytes.length := by
  obtain ⟨l, r0, rfl⟩ := branch_of_two_leaves key h2
  have hroot : rootIsSymbol (HuffmanKey.Branch l r0) = false := rfl
  constructor
  · obtain ⟨res, hres⟩ := decodeLoop_total ((bytesToBits bytes).length + 1)
      (.Branch l r0) (bytesToBits bytes) hroot le_rfl
    exact ⟨res, fun fuel hf => decodeLoop_mono _ fuel _ _ res hres hf⟩
  · intro out hout
    simp only [decode] at hout
    cases hdl : decodeLoop ((bytesToBits bytes).length + 1) (.Branch l r0)
        (bytesToBits bytes) with
    | none => rw [hdl] at hout; simp at hout
    | some r2 =>
      rw [hdl] at hout
      cases r2 with
      | none => simp at hout
      | some out2 =>
        obtain rfl : out2 = out := by simpa using hout
        have := decodeLoop_out_le _ _ _ _ hroot hdl
        rw [bytesToBits_length] at this
        exact this

/-- Spec-side initial pool of the tree builder, from the specification's
words: one leaf per distinct symbol of the input, with frequency its
occurrence count, plus one end-of-input leaf of frequency 0. -/
def specInitQueue [DecidableEq α] (content : List α) :
    Multiset (HuffmanTree (Option α)) :=
  ↑(content.dedup.map (fun s => HuffmanTree.Leaf (content.count s) (some s))) +
    {HuffmanTree.Leaf 0 none}

/-- Claim C3: the tree builder seeds the priority pool exactly as specified
(one leaf per distinct symbol with its count, plus a frequency-0 end-of-input
leaf), then repeatedly merges the two lowest-frequency nodes into a branch
whose frequency is their sum with the strictly smaller node on the left,
until one node remains; `make_key` returns that node stripped of
frequencies. -/
theorem claim_tree_builder_spec [DecidableEq α] (content : List α) :
    ∃ t, SpecBuild (specInitQueue content) t ∧
      make_key content = some (tree_to_key t) := by
  obtain ⟨t, hbt, hspec⟩ := buildTree_specBuild (initQueue content).length
    (initQueue content) le_rfl (by simp [initQueue])
  refine ⟨t, ?_, by rw [make_key, hbt]; rfl⟩
  have hperm : (initQueue content).Perm
      (content.dedup.map (fun s => HuffmanTree.Leaf (content.count s) (some s)) ++
        [HuffmanTree.Leaf 0 none]) := by
    rw [initQueue]
    apply List.Perm.append_right
    have h := (symbol_frequency_perm content).map
      (fun p => HuffmanTree.Leaf p.2 (some p.1))
    rw [List.map_map] at h
    exact h
  have hcoe : (↑(initQueue content) : Multiset (HuffmanTree (Option α))) =
      specInitQueue content := by
    rw [Multiset.coe_eq_coe.mpr hperm]
    rfl
  rw [hcoe] at hspec
  exact hspec

/-- Claim C4: the code table derived from any coding tree produced by the
tree builder is prefix-free: the bit paths of two distinct terminals are
never prefixes of one another. -/
theorem claim_prefix_free [DecidableEq α] (content : List α) (key : HuffmanKey α)
    (h : make_key content = some key) :
    ∀ q1 q2 p1 p2, q1 ≠ q2 →
      lookupKV q1 (make_encode_key key) = some p1 →
      lookupKV q2 (make_encode_key key) = some p2 →
      ¬ p1 <+: p2 := by
  intro q1 q2 p1 p2 hne h1 h2 hpre
  obtain ⟨t, rfl⟩ := hpre
  have f1 := make_encode_key_valid key q1 p1 h1
  have f2 := make_encode_key_valid key q2 (p1 ++ t) h2
  rw [follow_append, f1] at f2
  simp only [Option.some_bind] at f2
  cases t with
  | nil =>
    rw [follow_nil] at f2
    have hterm : terminalOf q1 = terminalOf q2 := Option.some_inj.mp f2
    apply hne
    cases q1 with
    | none =>
      cases q2 with
      | none => rfl
      | some s2 => simp [terminalOf] at hterm
    | some s1 =>
      cases q2 with
      | none => simp [terminalOf] at hterm
      | some s2 =>
        simp only [terminalOf, HuffmanKey.Symbol.injEq] at hterm
        rw [hterm]
  | cons b bs =>
    cases q1 with
    | none => simp [terminalOf, follow] at f2
    | some s1 => simp [terminalOf, follow] at f2

/-- Claim C10: the coding tree built from any input has exactly one
end-of-input leaf, and its symbol leaves are exactly the distinct symbols of
the input, one leaf each. -/
theorem claim_tree_leaves [DecidableEq α] (content : List α) (key : HuffmanKey α)
    (h : make_key content = some key) :
    occCount none (keySyms key) = 1 ∧
      ∀ s : α, occCount (some s) (keySyms key) = if s ∈ content then 1 else 0 := by
  have hperm := make_key_syms content key h
  have hmap : ((symbol_frequency content).map (fun p => (some p.1 : Option α))) =
      ((symbol_frequency content).map Prod.fst).map some := by
    rw [List.map_map]
    rfl
  constructor
  · rw [occCount_perm _ _ _ hperm, occCount_append, hmap, occCount_none_map_some]
    rfl
  · intro s
    rw [occCount_perm _ _ _ hperm, occCount_append, hmap, occCount_map_some]
    have h1 : occCount (some s : Option α) [none] = 0 := rfl
    rw [h1]
    by_cases hs : s ∈ content
    · rw [occCount_eq_one_of_nodup_mem s _ (symbol_frequency_keys_nodup content)
        ((symbol_frequency_keys_mem content s).mpr hs), if_pos hs]
    · rw [occCount_eq_zero_of_not_mem s _
        (fun hmem => hs ((symbol_frequency_keys_mem content s).mp hmem)), if_neg hs]

theorem make_key_single [DecidableEq α] (X : α) :
    make_key [X] = some (.Branch .EndOfInput (.Symbol X)) := by
  have hq : initQueue [X] = [HuffmanTree.Leaf 1 (some X), HuffmanTree.Leaf 0 none] := rfl
  have h1 : popMin [HuffmanTree.Leaf 1 (some X), HuffmanTree.Leaf 0 none] =
      some (HuffmanTree.Leaf 0 none, [HuffmanTree.Leaf 1 (some X)]) := rfl
  have h2 : popMin [HuffmanTree.Leaf 1 (some X)] =
      some (HuffmanTree.Leaf 1 (some X), []) := rfl
  have hstep := buildTree_step [HuffmanTree.Leaf 1 (some X), HuffmanTree.Leaf 0 none]
    (HuffmanTree.Leaf 0 none) (HuffmanTree.Leaf 1 (some X))
    [HuffmanTree.Leaf 1 (some X)] [] h1 h2
  have hmerge : mergeTrees (HuffmanTree.Leaf 0 (none : Option α))
      (HuffmanTree.Leaf 1 (some X)) =
      HuffmanTree.Branch 1 (HuffmanTree.Leaf 0 none) (HuffmanTree.Leaf 1 (some X)) := rfl
  rw [hmerge] at hstep
  have h3 : popMin [HuffmanTree.Branch 1 (HuffmanTree.Leaf 0 (none : Option α))
      (HuffmanTree.Leaf 1 (some X))] =
      some (HuffmanTree.Branch 1 (HuffmanTree.Leaf 0 none) (HuffmanTree.Leaf 1 (some X)),
        []) := rfl
  have hone := buildTree_one _ _ _ h3 rfl
  rw [make_key, hq, hstep, hone]
  rfl

theorem make_encode_key_single [DecidableEq α] (X : α) :
    make_encode_key (HuffmanKey.Branch .EndOfInput (.Symbol X)) =
      [(none, [false]), (some X, [true])] := by
  simp [make_encode_key, encodeKeyLoop, insertKV, removeKey]

theorem encodeBits_single [DecidableEq α] (X : α) :
    encodeBits [X] = some (.Branch .EndOfInput (.Symbol X), [true, false]) := by
  have hlkX : lookupKV (some X) [((none : Option α), [false]), (some X, [true])] =
      some [true] := by
    simp [lookupKV]
  simp only [encodeBits, make_key_single, Option.some_bind, make_encode_key_single,
    encodeSymbols, hlkX]
  rfl

theorem encode_single_eval [DecidableEq α] (X : α) :
    encode [X] = some (.Branch .EndOfInput (.Symbol X), [128]) := by
  rw [encode, encodeBits_single]
  rfl

theorem decode_single_eval (X : α) :
    decode (.Branch .EndOfInput (.Symbol X)) [128] = some [X] := rfl

/-- Claim C9: encoding a one-element input `[X]` succeeds with a two-leaf
coding tree (one `Symbol X` leaf and one end-of-input leaf), the emitted
payload is at most 2 bits before byte padding, and decoding the produced
bytes with that tree reproduces `[X]`. -/
theorem claim_single_symbol [DecidableEq α] (X : α) :
    ∃ bits, encodeBits [X] = some (.Branch .EndOfInput (.Symbol X), bits) ∧
      bits.length ≤ 2 ∧
      encode [X] = some (.Branch .EndOfInput (.Symbol X), bitsToBytes bits) ∧
      keySyms (HuffmanKey.Branch .EndOfInput (.Symbol X)) = [none, some X] ∧
      decode (.Branch .EndOfInput (.Symbol X)) (bitsToBytes bits) = some [X] := by
  refine ⟨[true, false], encodeBits_single X, by simp, ?_, rfl, ?_⟩
  · rw [encode, encodeBits_single]
    rfl
  · exact decode_single_eval X

/-- Claim C2 (evaluation at the failing input): `encode` on the empty input
does not fail; it succeeds with the bare end-of-input tree and an empty byte
sequence.  The `Option` result of `make_key` is never `none`, although
`main.rs` treats `None` as the empty-input error. -/
theorem claim_encode_empty_result : encode ([] : List Nat) = some (.EndOfInput, []) := by
  have hq : initQueue ([] : List Nat) = [HuffmanTree.Leaf 0 none] := rfl
  have hbt : buildTree [HuffmanTree.Leaf 0 (none : Option Nat)] =
      some (HuffmanTree.Leaf 0 none) := buildTree_one _ _ _ rfl rfl
  have hmk : make_key ([] : List Nat) = some .EndOfInput := by
    rw [make_key, hq, hbt]
    rfl
  have hmek : make_encode_key (HuffmanKey.EndOfInput : HuffmanKey Nat) = [(none, [])] := by
    simp [make_encode_key, encodeKeyLoop, insertKV, removeKey]
  simp only [encode, encodeBits, hmk, Option.some_bind, hmek, encodeSymbols]
  simp [lookupKV, bitsToBytes]

theorem claim_roundtrip_witness :
    ∃ key bytes, encode ([0] : List Nat) = some (key, bytes) ∧
      decode key bytes = some [0] :=
  claim_roundtrip [0] (by decide)

theorem claim_truncation_safe_witness :
    decode (HuffmanKey.Branch .EndOfInput (.Symbol (0 : Nat)))
        ([128] : List Nat).dropLast = some [0] ∨
      decode (HuffmanKey.Branch .EndOfInput (.Symbol (0 : Nat)))
        ([128] : List Nat).dropLast = none :=
  claim_truncation_safe [0] (by decide) _ [128] (encode_single_eval 0) (by decide)

theorem claim_decode_characterization_witness :
    SpecDecode (HuffmanKey.Branch .EndOfInput (.Symbol (0 : Nat)))
      (bytesToBits [128])
      (decode (HuffmanKey.Branch .EndOfInput (.Symbol (0 : Nat))) [128]) :=
  (claim_decode_characterization (HuffmanKey.Branch .EndOfInput (.Symbol (0 : Nat)))
    [128] (by decide)).1

theorem claim_decode_terminates_witness :
    ∃ res, ∀ fuel, (bytesToBits [128]).length + 1 ≤ fuel →
      decodeLoop fuel (HuffmanKey.Branch .EndOfInput (.Symbol (0 : Nat)))
        (bytesToBits [128]) = some res :=
  (claim_decode_terminates (HuffmanKey.Branch .EndOfInput (.Symbol (0 : Nat)))
    [128] (by decide)).1

theorem claim_prefix_free_witness : ¬ ([false] <+: [true]) :=
  claim_prefix_free [0] (HuffmanKey.Branch .EndOfInput (.Symbol (0 : Nat)))
    (make_key_single 0) none (some 0) [false] [true] (by decide)
    (by rw [make_encode_key_single]; decide)
    (by rw [make_encode_key_single]; decide)

theorem claim_tree_leaves_witness :
    occCount none (keySyms (HuffmanKey.Branch .EndOfInput (.Symbol (0 : Nat)))) = 1 ∧
      occCount (some 0) (keySyms (HuffmanKey.Branch .EndOfInput (.Symbol (0 : Nat)))) =
        if 0 ∈ ([0] : List Nat) then 1 else 0 :=
  ⟨(claim_tree_leaves [0] _ (make_key_single 0)).1,
   (claim_tree_leaves [0] _ (make_key_single 0)).2 0⟩

end Huffman
